import Mathlib

/-!
Verification development for the py7zz repository.

Python strings are embedded as `List Char` (the type `Name`).  The platform
test `platform.system() == "Windows"` is embedded as an explicit boolean
parameter `win` threaded through every function that consults it.  External
subprocess invocations and the filesystem are embedded as explicit oracles
(records of the outcomes the outside world would produce), and the sequence
of external commands a control-flow path performs is returned as an explicit
trace of `Act`s.
-/

set_option maxRecDepth 10000

abbrev Name := List Char

/-! ## Decimal rendering of naturals (used for the numeric disambiguator and
for rendering return codes in `str(CalledProcessError)`). -/

def decDigit (n : Nat) : Char :=
  (("0123456789").toList).getD (n % 10) '0'

def decDigitsRev (n : Nat) : List Char :=
  if h : n = 0 then []
  else decDigit n :: decDigitsRev (n / 10)
decreasing_by exact Nat.div_lt_self (Nat.pos_of_ne_zero h) (by decide)

def decRepr (n : Nat) : Name :=
  if n = 0 then ('0' :: []) else (decDigitsRev n).reverse

def intRepr (i : Int) : Name :=
  if i < 0 then '-' :: decRepr i.natAbs else decRepr i.natAbs

/-! ## A simple content-derived hash rendered as 8 hex characters. -/

def hexChars : Name := ("0123456789abcdef").toList

def hexDigit (n : Nat) : Char := hexChars.getD (n % 16) '0'

def hashFold (s : Name) : Nat :=
  s.foldl (fun a c => (a * 131 + c.toNat) % 4294967296) (s.length % 4294967296)

def hex8 (n : Nat) : Name :=
  [hexDigit (n / 268435456), hexDigit (n / 16777216), hexDigit (n / 1048576),
   hexDigit (n / 65536), hexDigit (n / 4096), hexDigit (n / 256),
   hexDigit (n / 16), hexDigit n]

def contentHash (s : Name) : Name := hex8 (hashFold s)

/-! ## Character classes of the Windows filename constraints. -/

def forbiddenChar (c : Char) : Bool :=
  decide (c.toNat < 32) || c == '<' || c == '>' || c == ':' || c == '"' ||
    c == '|' || c == '?' || c == '*'

def isSep (c : Char) : Bool := c == '/' || c == '\\'

def isStrip (c : Char) : Bool := c == '.' || c == ' '

/-! ## Splitting a path into separator-delimited segments and rejoining. -/

def splitSegs : Name → List Name
  | [] => [[]]
  | c :: rest =>
    match splitSegs rest with
    | [] => [[]]
    | s :: ss => if isSep c then [] :: s :: ss else (c :: s) :: ss

def joinSegs : List Name → Name
  | [] => []
  | [s] => s
  | s :: ss => s ++ '/' :: joinSegs ss

def dotdot : Name := ['.', '.']

/-! ## The filename sanitizer.

The module `py7zz/filename_sanitizer.py` is not present in the source tree
(only its tests and its importer `core.py` are), so the definitions below are
modelled from the spec, section 4.4. -/

/-- Modelled from the spec: `needs_sanitization(name)` is true only on the
constrained (Windows) platform, and there exactly when the name contains a
control character (0-31) or reserved punctuation, has a reserved device name
as its stem (case-insensitive), ends with a space or a dot, is longer than
255, or contains a `..` path-traversal segment.  The missing source file is
`py7zz/filename_sanitizer.py`. -/
def reservedNames : List Name :=
  [("CON").toList, ("PRN").toList, ("AUX").toList, ("NUL").toList,
   ("COM1").toList, ("COM2").toList, ("COM3").toList, ("COM4").toList,
   ("COM5").toList, ("COM6").toList, ("COM7").toList, ("COM8").toList,
   ("COM9").toList,
   ("LPT1").toList, ("LPT2").toList, ("LPT3").toList, ("LPT4").toList,
   ("LPT5").toList, ("LPT6").toList, ("LPT7").toList, ("LPT8").toList,
   ("LPT9").toList]

def stemOf (s : Name) : Name := s.takeWhile (fun c => !(c == '.'))

def restOf (s : Name) : Name := s.dropWhile (fun c => !(c == '.'))

def isReservedStem (s : Name) : Bool :=
  reservedNames.any (fun r => (stemOf s).map Char.toUpper == r)

def hasDotDotSeg (s : Name) : Bool :=
  (splitSegs s).any (fun seg => seg == dotdot)

def endsStrip (s : Name) : Bool :=
  match s.getLast? with
  | none => false
  | some c => isStrip c

def needs_sanitization (win : Bool) (s : Name) : Bool :=
  win && (s.any forbiddenChar || hasDotDotSeg s || endsStrip s ||
    isReservedStem s || decide (s.length > 255))

/-- Modelled from the spec: step 1 of `sanitize_filename` — replace each
forbidden character by the placeholder `'_'`. -/
def replaceForbidden (s : Name) : Name :=
  s.map (fun c => if forbiddenChar c then '_' else c)

/-- Modelled from the spec: drop `..` path-traversal segments.  If no segment
is `..` the name is returned untouched. -/
def dropTraversal (s : Name) : Name :=
  if hasDotDotSeg s then
    joinSegs ((splitSegs s).filter (fun seg => !(seg == dotdot)))
  else s

/-- Modelled from the spec: strip trailing spaces and dots. -/
def rstrip (s : Name) : Name := (s.reverse.dropWhile isStrip).reverse

/-- Modelled from the spec: append the fixed disambiguating suffix `_file` to
a reserved device-name stem, before the (dot-led) remainder. -/
def fileSuffix : Name := ('_' :: 'f' :: 'i' :: 'l' :: 'e' :: [])

def reservedFix (s : Name) : Name :=
  if isReservedStem s then stemOf s ++ fileSuffix ++ restOf s else s

/-- Modelled from the spec: a name that collapsed to empty is replaced by the
fixed placeholder name. -/
def unnamedFile : Name := ("unnamed_file").toList

def emptyFix (s : Name) : Name := if s = [] then unnamedFile else s

/-- Modelled from the spec: the extension (from the last dot, kept only when
reasonably short so that the truncated total can stay within the threshold). -/
def extCap : Nat := 16

def extTW (s : Name) : Name := s.reverse.takeWhile (fun c => !(c == '.'))

def extOf (s : Name) : Name :=
  if (extTW s).length < s.length then
    if (extTW s).length + 1 ≤ extCap then '.' :: (extTW s).reverse else []
  else []

def baseOf (s : Name) : Name := s.take (s.length - (extOf s).length)

/-- Modelled from the spec: a name beyond the 255-character threshold is
truncated, with a short content-derived hash appended before the preserved
extension so that the total stays within the threshold. -/
def lengthFix (s : Name) : Name :=
  if s.length ≤ 255 then s
  else
    let e := extOf s
    (baseOf s).take (255 - e.length - 1 - 8) ++ '_' :: contentHash s ++ e

/-- Modelled from the spec: the rule pipeline of `sanitize_filename` (before
conflict resolution): replace forbidden characters, drop traversal segments,
strip trailing spaces/dots, fix reserved stems, replace a collapsed-empty
result, enforce the length threshold. -/
def sanitizeCore (s : Name) : Name :=
  lengthFix (emptyFix (reservedFix (rstrip (dropTraversal (replaceForbidden s)))))

/-- Modelled from the spec: insert the numeric disambiguator before the
extension. -/
def insertNum (c : Name) (k : Nat) : Name :=
  baseOf c ++ '_' :: decRepr k ++ extOf c

def collisionBad (orig : Name) (existing : List Name) (cand : Name) : Bool :=
  existing.any (fun x => x == cand) || cand == orig

def searchFree (orig c : Name) (existing : List Name) : Nat → Nat → Name
  | k, 0 => insertNum c k
  | k, fuel + 1 =>
    if collisionBad orig existing (insertNum c k) then
      searchFree orig c existing (k + 1) fuel
    else insertNum c k

def maxNameLen (orig : Name) (existing : List Name) : Nat :=
  (orig :: existing).foldl (fun a x => max a x.length) 0

/-- Modelled from the spec: if the candidate collides with a name in
`existing_names`, a numeric disambiguator is appended, incrementing until the
candidate is unique (distinct from the existing names and from the original
input). -/
def resolveCollision (orig c : Name) (existing : List Name) : Name :=
  if existing.any (fun x => x == c) then
    searchFree orig c existing 1 (10 ^ (maxNameLen orig existing + 1))
  else c

/-- Modelled from the spec: `sanitize_filename(name, existing_names)` — a
no-op returning `(name, False)` on the unconstrained platform; otherwise the
rule pipeline followed by conflict resolution, with `changed` reporting
whether the result differs from the input.  The missing source file is
`py7zz/filename_sanitizer.py`. -/
def sanitize_filename (win : Bool) (s : Name) (existing : List Name) : Name × Bool :=
  if win then
    let r := resolveCollision s (sanitizeCore s) existing
    (r, !(r == s))
  else (s, false)

/-- Modelled from the spec: `get_sanitization_mapping(name_list)` applies the
sanitizer across a whole listing, returning only entries that needed
rewriting, with disambiguation considering all previously assigned sanitized
names in the batch (global uniqueness).  The missing source file is
`py7zz/filename_sanitizer.py`. -/
def mappingGo (win : Bool) : List Name → List Name → List (Name × Name) → List (Name × Name)
  | [], _, acc => acc.reverse
  | n :: rest, used, acc =>
    if needs_sanitization win n && !(acc.any (fun p => p.1 == n)) then
      mappingGo win rest ((sanitize_filename win n used).1 :: used)
        ((n, (sanitize_filename win n used).1) :: acc)
    else mappingGo win rest used acc

def get_sanitization_mapping (win : Bool) (names : List Name) : List (Name × Name) :=
  mappingGo win names [] []

/-! ## Field parsers (spec section 4.1).

The module `py7zz/detailed_parser.py` is not present in the source tree (only
its tests are), so `_parse_int` is modelled from the spec. -/

def digitVal (base : Nat) (c : Char) : Option Nat :=
  let v :=
    if c.toNat ≥ 48 && c.toNat ≤ 57 then some (c.toNat - 48)
    else if c.toNat ≥ 97 && c.toNat ≤ 122 then some (c.toNat - 87)
    else if c.toNat ≥ 65 && c.toNat ≤ 90 then some (c.toNat - 55)
    else none
  match v with
  | some d => if d < base then some d else none
  | none => none

def digitsVal (base : Nat) : Name → Nat → Option Nat
  | [], acc => some acc
  | c :: rest, acc =>
    match digitVal base c with
    | some d => digitsVal base rest (acc * base + d)
    | none => none

def stripSpaces (s : Name) : Name :=
  ((s.dropWhile (fun c => c == ' ')).reverse.dropWhile (fun c => c == ' ')).reverse

/-- Modelled from the spec: the exact-conversion attempt `int(raw, base)` of
the Python standard library, returning `none` where Python raises
`ValueError` (empty string, stray characters, digits out of range for the
base, float-looking strings).  Part of the missing `py7zz/detailed_parser.py`. -/
def pyIntOfString (base : Nat) (s : Name) : Option Int :=
  match stripSpaces s with
  | [] => none
  | c :: rest =>
    if c = '-' then
      if rest = [] then none
      else (digitsVal base rest 0).map (fun v => -(v : Int))
    else if c = '+' then
      if rest = [] then none
      else (digitsVal base rest 0).map (fun v => (v : Int))
    else (digitsVal base (c :: rest) 0).map (fun v => (v : Int))

/-- Modelled from the spec: `parse_integer(raw, base, default)` returns
`default` on empty string or any parse failure and never raises.  Modelled
from the missing `py7zz/detailed_parser.py` helper `_parse_int`. -/
def _parse_int (raw : Name) (base : Nat) (default : Int) : Int :=
  match pyIntOfString base raw with
  | some v => v
  | none => default

/-! ## Archive entry record (spec section 3 and 4.2).

The record model (`ArchiveInfo`) is not present in the source tree (only its
tests are), so the compression-ratio accessor is modelled from the spec. -/

structure ArchiveInfo where
  filename : Name
  file_size : Nat
  compress_size : Nat

/-- Modelled from the spec: the compression-ratio accessor is
`1 - compressed/uncompressed` when `uncompressed > 0` else `0.0`,
special-cased to `1.0` when `uncompressed > 0` and `compressed == 0`; no
clamping is applied.  Modelled from the missing `ArchiveInfo` model
(`py7zz/archive_info.py`), pinned by `tests/test_archive_info.py`. -/
def ArchiveInfo.get_compression_ratio (i : ArchiveInfo) : Rat :=
  if i.file_size = 0 then 0
  else if i.compress_size = 0 then 1
  else 1 - (i.compress_size : Rat) / (i.file_size : Rat)

/-! ## The extraction orchestrator (`py7zz/core.py`).

`subprocess.CalledProcessError` is embedded as `CPE`; the exception types of
the missing `py7zz/exceptions.py` are embedded as `PyExc`, whose `str()` is
its message.  The outcomes the external binary and the filesystem would
produce are an explicit oracle `ExtractEnv`, and each orchestrator function
returns the list of external `Act`s it performed. -/

structure CPE where
  returncode : Int
  stderr : Name
deriving DecidableEq

inductive PyExc where
  | extractionError (msg : Name) (returncode : Int) (cause : Option CPE)
  | filenameCompatibilityError (msg : Name) (problematicFiles : List Name) (sanitized : Bool)
  | runtimeError (msg : Name)
  | valueError (msg : Name)
  | fileNotFoundError (msg : Name)
  | notImplementedError (msg : Name)
deriving DecidableEq

def excMsgOf : PyExc → Name
  | .extractionError m _ _ => m
  | .filenameCompatibilityError m _ _ => m
  | .runtimeError m => m
  | .valueError m => m
  | .fileNotFoundError m => m
  | .notImplementedError m => m

inductive Act where
  | runDirect
  | listArchive
  | runBulkTemp
  | runSingle (member : Name)
  | mkdirParent (dst : Name)
  | skipExisting (dst : Name)
  | moveFile (src dst : Name)
deriving DecidableEq

structure ExtractEnv where
  win : Bool
  archivePath : Name
  direct : Option CPE
  listResult : Except CPE (List Name)
  bulk : Option CPE
  single : Name → Option CPE
  tempTree : List Name
  destExists : Name → Bool

/-- Substring test used for the diagnostic-phrase matching
(`pattern in error_lower` in Python). -/
def startsWith : Name → Name → Bool
  | _, [] => true
  | [], _ :: _ => false
  | c :: h, p :: ps => c == p && startsWith h ps

def containsSub : Name → Name → Bool
  | [], pat => startsWith [] pat
  | c :: t, pat => startsWith (c :: t) pat || containsSub t pat

def toLowerName (s : Name) : Name := s.map Char.toLower

/-- The fixed filename-incompatibility phrases of `_is_filename_error`
(`core.py`, lines 141-151). -/
def filename_error_patterns : List Name :=
  [("cannot create").toList,
   ("cannot use name").toList,
   ("invalid name").toList,
   ("the filename, directory name, or volume label syntax is incorrect").toList,
   ("the system cannot find the path specified").toList,
   ("cannot find the path").toList,
   ("access is denied").toList,
   ("filename too long").toList,
   ("illegal characters in name").toList]

/-- `_is_filename_error` (`core.py`, lines 125-153): `False` off Windows,
else a case-insensitive substring match against the fixed phrase list. -/
def _is_filename_error (win : Bool) (error_message : Name) : Bool :=
  win && filename_error_patterns.any
    (fun pat => containsSub (toLowerName error_message) pat)

/-- `error_message = e.stderr or str(e)` (`core.py`, line 291).  `str` of a
`CalledProcessError` is modelled as its headline text without the command
list. -/
def cpeStr (e : CPE) : Name :=
  ("Command returned non-zero exit status ").toList ++ intRepr e.returncode ++ ('.' :: [])

def errMsgOf (e : CPE) : Name := if e.stderr = [] then cpeStr e else e.stderr

def normSlash (s : Name) : Name := s.map (fun c => if c == '\\' then '/' else c)

def lookupName (k : Name) : List (Name × Name) → Option Name
  | [] => none
  | p :: t => if p.1 = k then some p.2 else lookupName k t

/-- `_move_sanitized_files` (`core.py`, lines 377-420): walk the extracted
temp tree; for each file take the mapping's value for its slash-normalised
relative path (falling back to the path itself), create the target's parent
directory, then either skip (destination exists and `overwrite` is false) or
move. -/
def moveTarget (sm : List (Name × Name)) (f : Name) : Name :=
  (lookupName (normSlash f) sm).getD (normSlash f)

def _move_sanitized_files (sm : List (Name × Name)) (overwrite : Bool)
    (destExists : Name → Bool) : List Name → List Act
  | [] => []
  | f :: rest =>
    Act.mkdirParent (moveTarget sm f) ::
      (if destExists (moveTarget sm f) && !overwrite then
        Act.skipExisting (moveTarget sm f)
       else Act.moveFile f (moveTarget sm f)) ::
      _move_sanitized_files sm overwrite destExists rest

def pyStrRepr (s : Name) : Name :=
  Char.ofNat 39 :: s ++ (Char.ofNat 39 :: [])

def joinCommaSep : List Name → Name
  | [] => []
  | [x] => x
  | x :: xs => x ++ ',' :: ' ' :: joinCommaSep xs

def pyListRepr (l : List Name) : Name :=
  '[' :: joinCommaSep (l.map pyStrRepr) ++ (']' :: [])

def indivFailMsg (failed : List Name) : Name :=
  ("Unable to extract any files even with sanitization. Failed files: ").toList ++
    pyListRepr (failed.take 10)

/-- The per-member loop of `_extract_files_individually` (`core.py`, lines
433-475): returns (number successfully extracted, failed members in order,
actions performed). -/
def indivLoop (single : Name → Option CPE) (destExists : Name → Bool)
    (overwrite : Bool) : List (Name × Name) → Nat × List Name × List Act
  | [] => (0, [], [])
  | (o, s) :: rest =>
    let r := indivLoop single destExists overwrite rest
    match single o with
    | some _ => (r.1, o :: r.2.1, Act.runSingle o :: r.2.2)
    | none =>
      if destExists s && !overwrite then
        (r.1, r.2.1,
          Act.runSingle o :: Act.mkdirParent s :: Act.skipExisting s :: r.2.2)
      else
        (r.1 + 1, r.2.1,
          Act.runSingle o :: Act.mkdirParent s :: Act.moveFile o s :: r.2.2)

/-- `_extract_files_individually` (`core.py`, lines 422-491): per-member
extraction, accumulating failures; raises `FilenameCompatibilityError`
exactly when the success count is zero. -/
def _extract_files_individually (sm : List (Name × Name)) (overwrite : Bool)
    (single : Name → Option CPE) (destExists : Name → Bool) :
    Except PyExc Unit × List Act :=
  let r := indivLoop single destExists overwrite sm
  (if r.1 = 0 then
     Except.error (PyExc.filenameCompatibilityError (indivFailMsg r.2.1)
       (sm.map Prod.fst) true)
   else Except.ok (), r.2.2)

def listFailPre : Name := ("Failed to list archive contents: ").toList

/-- `list_contents` (`core.py`, lines 493-530), as consumed by the
orchestrator: the member-name list on success, a `RuntimeError` wrapping the
diagnostic on failure. -/
def list_contents (env : ExtractEnv) : Except PyExc (List Name) :=
  match env.listResult with
  | .error e => .error (.runtimeError (listFailPre ++ e.stderr))
  | .ok l => .ok l

def noProblemMsg : Name :=
  ("No problematic filenames detected, but extraction failed. This might be a different type of error.").toList

def noMappingMsg : Name :=
  ("Unable to generate filename sanitization mapping").toList

/-- `_extract_with_sanitization` (`core.py`, lines 316-375): list the
archive, compute the problematic members; `FilenameCompatibilityError` when
none need sanitization (or when the mapping is empty); otherwise bulk-extract
to a temp directory and move with renames, falling back to per-member
extraction when the bulk extraction also fails. -/
def _extract_with_sanitization (env : ExtractEnv) (overwrite : Bool) :
    Except PyExc Unit × List Act :=
  match list_contents env with
  | .error e => (.error e, Act.listArchive :: [])
  | .ok fl =>
    let probl := fl.filter (fun f => needs_sanitization env.win f)
    if probl = [] then
      (.error (.filenameCompatibilityError noProblemMsg probl false),
        Act.listArchive :: [])
    else
      let sm := get_sanitization_mapping env.win fl
      if sm = [] then
        (.error (.filenameCompatibilityError noMappingMsg probl false),
          Act.listArchive :: [])
      else
        match env.bulk with
        | none =>
          (.ok (), Act.listArchive :: Act.runBulkTemp ::
            _move_sanitized_files sm overwrite env.destExists env.tempTree)
        | some _ =>
          let r := _extract_files_individually sm overwrite env.single env.destExists
          (r.1, Act.listArchive :: Act.runBulkTemp :: r.2)

def extractFailPre : Name := ("Failed to extract archive: ").toList

def sanWrapA : Name :=
  ("Failed to extract archive even with filename sanitization. Original error: ").toList

def sanWrapB : Name := (". Sanitization error: ").toList

def writeModeMsg : Name :=
  ("Cannot extract from archive opened in write mode").toList

def notFoundPre : Name := ("Archive not found: ").toList

/-- `SevenZipFile.extract` (`core.py`, lines 262-314): mode and existence
checks, the direct attempt, the filename-error classification of its
diagnostic, and the sanitization fallback whose own failure is re-raised as
an `ExtractionError` carrying both diagnostics, the original return code, and
the original `CalledProcessError` as cause. -/
def extract (env : ExtractEnv) (overwrite : Bool) (modeW : Bool)
    (fileExists : Bool) : Except PyExc Unit × List Act :=
  if modeW then (.error (.valueError writeModeMsg), [])
  else if !fileExists then
    (.error (.fileNotFoundError (notFoundPre ++ env.archivePath)), [])
  else
    match env.direct with
    | none => (.ok (), Act.runDirect :: [])
    | some e =>
      let msg := errMsgOf e
      if !_is_filename_error env.win msg then
        (.error (.extractionError (extractFailPre ++ msg) e.returncode (some e)),
          Act.runDirect :: [])
      else
        let r := _extract_with_sanitization env overwrite
        match r.1 with
        | .ok _ => (.ok (), Act.runDirect :: r.2)
        | .error se =>
          (.error (.extractionError (sanWrapA ++ msg ++ sanWrapB ++ excMsgOf se)
            e.returncode (some e)), Act.runDirect :: r.2)

def niMsg : Name := ("Selective extraction not yet implemented").toList

/-- `SevenZipFile.extractall` (`core.py`, lines 548-563):
`NotImplementedError` for a non-`None` `members`, else delegation to
`extract(path, overwrite=True)`. -/
def extractall (env : ExtractEnv) (modeW : Bool) (fileExists : Bool)
    (members : Option (List Name)) : Except PyExc Unit × List Act :=
  match members with
  | some _ => (.error (.notImplementedError niMsg), [])
  | none => extract env true modeW fileExists

/-! ## General list helpers. -/

theorem mapStable {l : Name} {f : Char → Char} (h : ∀ c ∈ l, f c = c) :
    l.map f = l := by
  induction l with
  | nil => rfl
  | cons c t ih =>
    simp only [List.map_cons, List.cons.injEq]
    exact ⟨h c (by simp), ih (fun x hx => h x (by simp [hx]))⟩

theorem mem_dropWhile {c : Char} {p : Char → Bool} {l : Name}
    (h : c ∈ l.dropWhile p) : c ∈ l := by
  induction l with
  | nil => simpa [List.dropWhile] using h
  | cons a t ih =>
    by_cases hp : p a = true
    · simp only [List.dropWhile, hp] at h
      exact List.mem_cons_of_mem a (ih h)
    · simp only [List.dropWhile, hp] at h
      simpa using h

theorem mem_takeWhile {c : Char} {p : Char → Bool} {l : Name}
    (h : c ∈ l.takeWhile p) : c ∈ l := by
  induction l with
  | nil => simpa [List.takeWhile] using h
  | cons a t ih =>
    by_cases hp : p a = true
    · simp only [List.takeWhile, hp] at h
      rcases List.mem_cons.mp h with h | h
      · simp [h]
      · exact List.mem_cons_of_mem a (ih h)
    · simp only [List.takeWhile, hp] at h
      simp at h

theorem dropWhile_head_false {p : Char → Bool} {l t : Name} {c : Char}
    (h : l.dropWhile p = c :: t) : p c = false := by
  induction l with
  | nil => simp [List.dropWhile] at h
  | cons a u ih =>
    rw [List.dropWhile_cons] at h
    by_cases hp : p a = true
    · rw [if_pos hp] at h
      exact ih h
    · rw [if_neg hp] at h
      injection h with h1 _
      rw [← h1]
      simpa using hp

theorem takeWhile_all {p : Char → Bool} {l : Name} (h : ∀ c ∈ l, p c = true) :
    l.takeWhile p = l := by
  induction l with
  | nil => rfl
  | cons a t ih =>
    simp only [List.takeWhile, h a (by simp)]
    exact congrArg (a :: ·) (ih (fun x hx => h x (by simp [hx])))

theorem takeWhile_append_all {p : Char → Bool} {a b : Name}
    (h : ∀ c ∈ a, p c = true) :
    (a ++ b).takeWhile p = a ++ b.takeWhile p := by
  induction a with
  | nil => simp
  | cons x t ih =>
    simp only [List.cons_append, List.takeWhile, h x (by simp)]
    exact congrArg (x :: ·) (ih (fun c hc => h c (by simp [hc])))

theorem takeWhile_append_stop {p : Char → Bool} {a b : Name}
    (h : a.takeWhile p ≠ a) :
    (a ++ b).takeWhile p = a.takeWhile p := by
  induction a with
  | nil => simp at h
  | cons x t ih =>
    rw [List.takeWhile_cons] at h
    by_cases hp : p x = true
    · rw [if_pos hp] at h
      rw [List.cons_append, List.takeWhile_cons, if_pos hp,
        List.takeWhile_cons, if_pos hp]
      have ht : t.takeWhile p ≠ t := fun he => h (by rw [he])
      exact congrArg (x :: ·) (ih ht)
    · rw [List.cons_append, List.takeWhile_cons, if_neg hp,
        List.takeWhile_cons, if_neg hp]

theorem takeWhile_take {p : Char → Bool} (k : Nat) (l : Name) :
    (l.take k).takeWhile p = (l.takeWhile p).take k := by
  induction l generalizing k with
  | nil => simp
  | cons a t ih =>
    cases k with
    | zero => simp
    | succ m =>
      by_cases hp : p a = true
      · simp only [List.take, List.takeWhile, hp, List.take_cons]
        exact congrArg (a :: ·) (ih m)
      · simp [List.take, List.takeWhile, hp]

theorem getLast?_append_left {a b : Name} (hb : b = []) :
    (a ++ b).getLast? = a.getLast? := by
  subst hb; simp

theorem getLast?_append_right {a b : Name} (hb : b ≠ []) :
    (a ++ b).getLast? = b.getLast? := by
  rw [List.getLast?_append]
  cases hB : b.getLast? with
  | none => exact absurd (List.getLast?_eq_none_iff.mp hB) hb
  | some c => simp

/-! ## Structure of `splitSegs` and `joinSegs`. -/

theorem splitSegs_ne_nil (s : Name) : splitSegs s ≠ [] := by
  cases s with
  | nil => simp [splitSegs]
  | cons c t =>
    simp only [splitSegs]
    rcases h : splitSegs t with _ | ⟨a, l⟩
    · simp
    · by_cases hs : isSep c = true <;> simp [hs]

theorem splitSegs_sep_free (s : Name) :
    ∀ seg ∈ splitSegs s, ∀ c ∈ seg, isSep c = false := by
  induction s with
  | nil =>
    intro seg hseg c hc
    simp [splitSegs] at hseg
    subst hseg; simp at hc
  | cons a t ih =>
    intro seg hseg c hc
    rcases h : splitSegs t with _ | ⟨x, l⟩
    · exact absurd h (splitSegs_ne_nil t)
    · simp only [splitSegs, h] at hseg
      by_cases hs : isSep a = true
      · simp only [hs, if_true] at hseg
        rcases List.mem_cons.mp hseg with rfl | hseg
        · simp at hc
        · exact ih seg (by rw [h]; exact hseg) c hc
      · simp only [hs, if_false] at hseg
        rcases List.mem_cons.mp hseg with rfl | hseg
        · rcases List.mem_cons.mp hc with rfl | hc
          · simpa using hs
          · exact ih x (by rw [h]; simp) c hc
        · exact ih seg (by rw [h]; simp [hseg]) c hc

theorem mem_of_mem_splitSegs (s : Name) :
    ∀ seg ∈ splitSegs s, ∀ c ∈ seg, c ∈ s := by
  induction s with
  | nil =>
    intro seg hseg c hc
    simp [splitSegs] at hseg
    subst hseg; simp at hc
  | cons a t ih =>
    intro seg hseg c hc
    rcases h : splitSegs t with _ | ⟨x, l⟩
    · exact absurd h (splitSegs_ne_nil t)
    · simp only [splitSegs, h] at hseg
      by_cases hs : isSep a = true
      · simp only [hs, if_true] at hseg
        rcases List.mem_cons.mp hseg with rfl | hseg
        · simp at hc
        · exact List.mem_cons_of_mem a
            (ih seg (by rw [h]; exact hseg) c hc)
      · simp only [hs, if_false] at hseg
        rcases List.mem_cons.mp hseg with rfl | hseg
        · rcases List.mem_cons.mp hc with rfl | hcx
          · simp
          · exact List.mem_cons_of_mem a
              (ih x (by rw [h]; exact List.mem_cons_self x l) c hcx)
        · exact List.mem_cons_of_mem a
            (ih seg (by rw [h]; simp [hseg]) c hc)


theorem getLastD_cons' (a : Name) (l : List Name) (d : Name) :
    (a :: l).getLastD d = l.getLastD a := by
  cases l <;> simp [List.getLastD]

theorem splitSegs_cons_sep {a : Char} (h : isSep a = true) (t : Name) :
    splitSegs (a :: t) = [] :: splitSegs t := by
  rcases ht : splitSegs t with _ | ⟨s, ss⟩
  · exact absurd ht (splitSegs_ne_nil t)
  · simp only [splitSegs, ht, h, if_true]

theorem splitSegs_cons_nosep {a : Char} (h : isSep a = false) (t : Name) :
    splitSegs (a :: t) =
      (a :: (splitSegs t).headD []) :: (splitSegs t).tail := by
  rcases ht : splitSegs t with _ | ⟨s, ss⟩
  · exact absurd ht (splitSegs_ne_nil t)
  · simp [splitSegs, ht, h]

theorem getLastD_single (x d : Name) : [x].getLastD d = x := by
  rw [getLastD_cons']; rfl

theorem getLast?_cons_of_ne_nil {a : Char} {t : Name} (h : t ≠ []) :
    (a :: t).getLast? = t.getLast? := by
  cases t with
  | nil => exact absurd rfl h
  | cons b w => exact List.getLast?_cons_cons

theorem splitSegs_single_nil {t : Name} (h : splitSegs t = [[]]) : t = [] := by
  cases t with
  | nil => rfl
  | cons a u =>
    by_cases hs : isSep a = true
    · rw [splitSegs_cons_sep hs] at h
      injection h with e1 e2
      exact absurd e2 (splitSegs_ne_nil u)
    · rw [splitSegs_cons_nosep (by simpa using hs)] at h
      injection h with e1 e2
      simp at e1

theorem splitSegs_no_sep {s : Name} (h : ∀ c ∈ s, isSep c = false) :
    splitSegs s = [s] := by
  induction s with
  | nil => rfl
  | cons a t ih =>
    have ht := ih (fun c hc => h c (by simp [hc]))
    rw [splitSegs_cons_nosep (h a (by simp)), ht]
    simp

theorem splitSegs_append (x y : Name) :
    splitSegs (x ++ y) = (splitSegs x).dropLast ++
      ((splitSegs x).getLastD [] ++ (splitSegs y).headD []) ::
        (splitSegs y).tail := by
  induction x with
  | nil =>
    rcases hy : splitSegs y with _ | ⟨s, ss⟩
    · exact absurd hy (splitSegs_ne_nil y)
    · simp only [List.nil_append, splitSegs, List.dropLast_single,
        List.getLastD, List.headD, List.tail, hy]
      rfl
  | cons a t ih =>
    rw [List.cons_append]
    by_cases hs : isSep a = true
    · rw [splitSegs_cons_sep hs, splitSegs_cons_sep hs, ih]
      rcases ht : splitSegs t with _ | ⟨u, us⟩
      · exact absurd ht (splitSegs_ne_nil t)
      · simp only [List.dropLast_cons_of_ne_nil (List.cons_ne_nil u us),
          getLastD_cons', List.cons_append]
    · have hs' : isSep a = false := by simpa using hs
      rw [splitSegs_cons_nosep hs', splitSegs_cons_nosep hs', ih]
      rcases ht : splitSegs t with _ | ⟨u, us⟩
      · exact absurd ht (splitSegs_ne_nil t)
      · cases us with
        | nil =>
          simp only [List.dropLast_single, getLastD_single, List.headD_cons,
            List.tail_cons, List.nil_append, List.cons_append]
        | cons v vs =>
          simp only [List.dropLast_cons_of_ne_nil (List.cons_ne_nil v vs),
            List.headD_cons, List.tail_cons, getLastD_cons', List.cons_append]

theorem lastSegD_last_char (s : Name) :
    (splitSegs s).getLastD [] ≠ [] →
    s.getLast? = ((splitSegs s).getLastD []).getLast? := by
  induction s with
  | nil => intro h; simp [splitSegs, List.getLastD] at h
  | cons a t ih =>
    intro h
    by_cases hs : isSep a = true
    · rw [splitSegs_cons_sep hs] at h ⊢
      rw [getLastD_cons'] at h ⊢
      have ht : t ≠ [] := by
        intro he; subst he
        simp [splitSegs, List.getLastD] at h
      rw [getLast?_cons_of_ne_nil ht]
      exact ih h
    · have hs' : isSep a = false := by simpa using hs
      rw [splitSegs_cons_nosep hs'] at h ⊢
      rcases ht2 : splitSegs t with _ | ⟨u, us⟩
      · exact absurd ht2 (splitSegs_ne_nil t)
      · rw [ht2] at ih h
        simp only [List.headD_cons, List.tail_cons] at h ⊢
        cases us with
        | nil =>
          rw [getLastD_single]
          cases hu : u with
          | nil =>
            have ht0 : t = [] := splitSegs_single_nil (by rw [ht2, hu])
            subst ht0
            rfl
          | cons b w =>
            have ht : t ≠ [] := by
              intro he; subst he
              simp only [splitSegs] at ht2
              injection ht2 with e1 e2
              rw [hu] at e1
              exact List.cons_ne_nil b w e1.symm
            rw [getLast?_cons_of_ne_nil ht]
            have ihh := ih (by rw [getLastD_single, hu]; exact List.cons_ne_nil b w)
            rw [getLastD_single] at ihh
            rw [ihh, hu]
            exact (getLast?_cons_of_ne_nil (List.cons_ne_nil b w)).symm
        | cons v vs =>
          simp only [getLastD_cons'] at h ⊢
          have ht : t ≠ [] := by
            intro he; subst he
            simp only [splitSegs] at ht2
            have := congrArg List.length ht2
            simp at this
          rw [getLast?_cons_of_ne_nil ht]
          have ihh := ih (by simp only [getLastD_cons']; exact h)
          simp only [getLastD_cons'] at ihh
          exact ihh

theorem splitSegs_joinSegs {L : List Name} (hne : L ≠ [])
    (hsf : ∀ seg ∈ L, ∀ c ∈ seg, isSep c = false) :
    splitSegs (joinSegs L) = L := by
  induction L with
  | nil => exact absurd rfl hne
  | cons x rest ih =>
    cases rest with
    | nil =>
      show splitSegs x = [x]
      exact splitSegs_no_sep (hsf x (by simp))
    | cons y rs =>
      have hx : ∀ c ∈ x, isSep c = false := hsf x (by simp)
      have hrest := ih (List.cons_ne_nil y rs)
        (fun seg hseg c hc => hsf seg (by simp [List.mem_cons.mp hseg]) c hc)
      show splitSegs (x ++ '/' :: joinSegs (y :: rs)) = x :: y :: rs
      rw [splitSegs_append, splitSegs_no_sep hx,
        splitSegs_cons_sep (by rfl), hrest]
      simp [List.getLastD]

theorem mem_joinSegs {L : List Name} {c : Char} (h : c ∈ joinSegs L) :
    c = '/' ∨ ∃ seg ∈ L, c ∈ seg := by
  induction L with
  | nil => simp [joinSegs] at h
  | cons x rest ih =>
    cases rest with
    | nil =>
      exact Or.inr ⟨x, by simp, h⟩
    | cons y rs =>
      rcases List.mem_append.mp h with h | h
      · exact Or.inr ⟨x, by simp, h⟩
      · rcases List.mem_cons.mp h with rfl | h
        · exact Or.inl rfl
        · rcases ih h with h | ⟨seg, hseg, hc⟩
          · exact Or.inl h
          · exact Or.inr ⟨seg, by simp [List.mem_cons.mp hseg], hc⟩

/-! ## Character-class and hash facts. -/

theorem hexChars_prop :
    ∀ c ∈ hexChars, forbiddenChar c = false ∧ isSep c = false ∧
      isStrip c = false ∧ (c == '.') = false := by decide

theorem hexDigit_mem (n : Nat) : hexDigit n ∈ hexChars := by
  have h : n % 16 < hexChars.length := by
    have : n % 16 < 16 := Nat.mod_lt _ (by decide)
    simpa using this
  rw [hexDigit, List.getD_eq_getElem hexChars '0' h]
  exact List.getElem_mem h

theorem contentHash_mem {s : Name} {c : Char} (h : c ∈ contentHash s) :
    c ∈ hexChars := by
  simp only [contentHash, hex8, List.mem_cons, List.not_mem_nil, or_false] at h
  rcases h with h | h | h | h | h | h | h | h <;> (rw [h]; exact hexDigit_mem _)

theorem contentHash_length (s : Name) : (contentHash s).length = 8 := rfl

theorem contentHash_ne_nil (s : Name) : contentHash s ≠ [] := by
  intro h
  have := congrArg List.length h
  simp [contentHash_length] at this

/-! ## Extension/base decomposition. -/

theorem extOf_length_le (s : Name) : (extOf s).length ≤ extCap := by
  rw [extOf]
  split
  · split
    · simpa using (by assumption : (extTW s).length + 1 ≤ extCap)
    · simp
  · simp

theorem rev_split (s : Name) :
    s = (s.reverse.dropWhile (fun c => !(c == '.'))).reverse ++ (extTW s).reverse := by
  have h := List.takeWhile_append_dropWhile (fun c => !(c == '.')) s.reverse
  have h2 := congrArg List.reverse h
  simp only [List.reverse_append, List.reverse_reverse] at h2
  rw [extTW]
  exact h2.symm

theorem baseOf_append_extOf (s : Name) : baseOf s ++ extOf s = s := by
  rw [baseOf]
  by_cases h1 : (extTW s).length < s.length
  · by_cases h2 : (extTW s).length + 1 ≤ extCap
    · have hE : extOf s = '.' :: (extTW s).reverse := by
        rw [extOf, if_pos h1, if_pos h2]
      rw [hE]
      have hsplit := rev_split s
      rcases hd : s.reverse.dropWhile (fun c => !(c == '.')) with _ | ⟨d, w⟩
      · rw [hd] at hsplit
        simp only [List.reverse_nil, List.nil_append] at hsplit
        have h3 := congrArg List.length hsplit
        simp only [List.length_reverse, extTW] at h3
        rw [extTW] at h1
        omega
      · have hdot : d = '.' := by simpa using dropWhile_head_false hd
        subst hdot
        rw [hd] at hsplit
        have hs2 : s = w.reverse ++ '.' :: (extTW s).reverse := by
          simpa using hsplit
        have hlen : s.length - ('.' :: (extTW s).reverse).length =
            w.reverse.length := by
          have h3 := congrArg List.length hs2
          simp only [List.length_append, List.length_reverse,
            List.length_cons] at h3
          simp only [List.length_cons, List.length_reverse]
          omega
        rw [hlen]
        nth_rewrite 1 [hs2]
        rw [List.take_left, ← hs2]
    · have hE : extOf s = [] := by rw [extOf, if_pos h1, if_neg h2]
      rw [hE]
      simp
  · have hE : extOf s = [] := by rw [extOf, if_neg h1]
    rw [hE]
    simp

theorem extOf_mem {s : Name} {c : Char} (h : c ∈ extOf s) :
    c = '.' ∨ c ∈ s := by
  rw [extOf] at h
  split at h
  · split at h
    · rcases List.mem_cons.mp h with rfl | h
      · exact Or.inl rfl
      · refine Or.inr ?_
        rw [List.mem_reverse] at h
        have h2 := mem_takeWhile (p := fun c => !(c == '.')) (by simpa [extTW] using h)
        rwa [List.mem_reverse] at h2
    · simp at h
  · simp at h

/-! ## The no-forbidden-character invariant through the pipeline. -/

theorem fileSuffix_prop :
    ∀ c ∈ fileSuffix, forbiddenChar c = false ∧ isSep c = false ∧
      (c == '.') = false := by decide

theorem unnamedFile_prop :
    ∀ c ∈ unnamedFile, forbiddenChar c = false := by decide

theorem noFb_replaceForbidden (s : Name) :
    ∀ c ∈ replaceForbidden s, forbiddenChar c = false := by
  intro c hc
  rw [replaceForbidden] at hc
  rcases List.mem_map.mp hc with ⟨x, _, hx⟩
  by_cases hfx : forbiddenChar x = true
  · rw [← hx, if_pos hfx]; decide
  · rw [← hx, if_neg hfx]; simpa using hfx

theorem noFb_dropTraversal {s : Name}
    (h : ∀ c ∈ s, forbiddenChar c = false) :
    ∀ c ∈ dropTraversal s, forbiddenChar c = false := by
  intro c hc
  rw [dropTraversal] at hc
  split at hc
  · rcases mem_joinSegs hc with rfl | ⟨seg, hseg, hcseg⟩
    · decide
    · exact h c (mem_of_mem_splitSegs s seg (List.mem_filter.mp hseg).1 c hcseg)
  · exact h c hc

theorem noFb_rstrip {s : Name}
    (h : ∀ c ∈ s, forbiddenChar c = false) :
    ∀ c ∈ rstrip s, forbiddenChar c = false := by
  intro c hc
  rw [rstrip, List.mem_reverse] at hc
  exact h c (List.mem_reverse.mp (mem_dropWhile hc))

theorem noFb_reservedFix {s : Name}
    (h : ∀ c ∈ s, forbiddenChar c = false) :
    ∀ c ∈ reservedFix s, forbiddenChar c = false := by
  intro c hc
  rw [reservedFix] at hc
  split at hc
  · rcases List.mem_append.mp hc with hc | hc
    · rcases List.mem_append.mp hc with hc | hc
      · exact h c (mem_takeWhile hc)
      · exact (fileSuffix_prop c hc).1
    · exact h c (mem_dropWhile hc)
  · exact h c hc

theorem noFb_emptyFix {s : Name}
    (h : ∀ c ∈ s, forbiddenChar c = false) :
    ∀ c ∈ emptyFix s, forbiddenChar c = false := by
  intro c hc
  rw [emptyFix] at hc
  split at hc
  · exact unnamedFile_prop c hc
  · exact h c hc

theorem noFb_lengthFix {s : Name}
    (h : ∀ c ∈ s, forbiddenChar c = false) :
    ∀ c ∈ lengthFix s, forbiddenChar c = false := by
  intro c hc
  rw [lengthFix] at hc
  split at hc
  · exact h c hc
  · have hc' : c ∈ (baseOf s).take (255 - (extOf s).length - 1 - 8) ∨
        c = '_' ∨ c ∈ contentHash s ∨ c ∈ extOf s := by
      simpa [List.mem_append, List.mem_cons, or_assoc] using hc
    rcases hc' with hc | rfl | hc | hc
    · have hb : c ∈ baseOf s := List.mem_of_mem_take hc
      rw [baseOf] at hb
      exact h c (List.mem_of_mem_take hb)
    · decide
    · exact (hexChars_prop c (contentHash_mem hc)).1
    · rcases extOf_mem hc with rfl | hc
      · decide
      · exact h c hc

/-! ## The no-traversal-segment invariant through the pipeline. -/

theorem hasDotDot_false_iff (s : Name) :
    hasDotDotSeg s = false ↔ ∀ seg ∈ splitSegs s, seg ≠ dotdot := by
  rw [hasDotDotSeg, List.any_eq_false]
  constructor
  · intro h seg hseg he
    exact h seg hseg (by rw [he]; exact beq_iff_eq.mpr rfl)
  · intro h seg hseg hbeq
    exact h seg hseg (beq_iff_eq.mp hbeq)

theorem ne_dotdot_of_len {l : Name} (h : 2 < l.length) : l ≠ dotdot := by
  intro he
  rw [he] at h
  simp [dotdot] at h

theorem dropLast_append_getLastD {l : List Name} (d : Name) (h : l ≠ []) :
    l.dropLast ++ [l.getLastD d] = l := by
  induction l generalizing d with
  | nil => exact absurd rfl h
  | cons a t ih =>
    cases t with
    | nil => simp [List.getLastD]
    | cons b u =>
      rw [getLastD_cons', List.dropLast_cons_of_ne_nil (List.cons_ne_nil b u),
        List.cons_append, ih a (List.cons_ne_nil b u)]

theorem noDD_dropTraversal (s : Name) :
    hasDotDotSeg (dropTraversal s) = false := by
  rw [dropTraversal]
  split
  · rw [hasDotDot_false_iff]
    intro seg hseg
    rcases hLnil : (splitSegs s).filter (fun seg => !(seg == dotdot)) with _ | ⟨x, xs⟩
    · rw [hLnil] at hseg
      simp only [joinSegs, splitSegs] at hseg
      rcases List.mem_singleton.mp hseg
      simp [dotdot]
    · have hj : splitSegs (joinSegs ((splitSegs s).filter
          (fun seg => !(seg == dotdot)))) =
          (splitSegs s).filter (fun seg => !(seg == dotdot)) :=
        splitSegs_joinSegs (by rw [hLnil]; simp)
          (fun seg2 hseg2 c hc =>
            splitSegs_sep_free s seg2 (List.mem_filter.mp hseg2).1 c hc)
      rw [hj] at hseg
      have hb := (List.mem_filter.mp hseg).2
      intro he
      rw [he] at hb
      simp at hb
  · next h =>
    rw [hasDotDot_false_iff]
    intro seg hseg
    exact (hasDotDot_false_iff s).mp (by simpa using h) seg hseg

theorem endsStrip_eq_some {s : Name} {c : Char} (h : s.getLast? = some c) :
    endsStrip s = isStrip c := by
  simp only [endsStrip, h]

theorem endsStrip_nil : endsStrip [] = false := rfl

theorem noTr_rstrip (s : Name) : endsStrip (rstrip s) = false := by
  rw [rstrip]
  rcases hd : s.reverse.dropWhile isStrip with _ | ⟨c, t⟩
  · exact endsStrip_nil
  · have hlast : ((c :: t).reverse).getLast? = some c := by
      rw [List.getLast?_reverse]
      rfl
    rw [endsStrip_eq_some hlast]
    exact dropWhile_head_false hd

theorem rstrip_split (s : Name) :
    s = rstrip s ++ (s.reverse.takeWhile isStrip).reverse := by
  have h2 := List.takeWhile_append_dropWhile isStrip s.reverse
  have h3 := congrArg List.reverse h2
  simp only [List.reverse_append, List.reverse_reverse] at h3
  rw [rstrip]
  exact h3.symm

theorem noDD_rstrip {s : Name} (h : hasDotDotSeg s = false) :
    hasDotDotSeg (rstrip s) = false := by
  have hsplit := rstrip_split s
  rcases hv : (s.reverse.takeWhile isStrip).reverse with _ | ⟨d, w⟩
  · rw [hv, List.append_nil] at hsplit
    rwa [← hsplit]
  · rw [hv] at hsplit
    have hvsf : ∀ c ∈ d :: w, isSep c = false := by
      intro c hc
      have hc2 : c ∈ s.reverse.takeWhile isStrip := by
        rw [← List.mem_reverse, hv]
        exact hc
      have h3 := List.mem_takeWhile_imp hc2
      have h4 : c = '.' ∨ c = ' ' := by
        rw [isStrip] at h3
        rcases Bool.or_eq_true_iff.mp h3 with h5 | h5
        · exact Or.inl (beq_iff_eq.mp h5)
        · exact Or.inr (beq_iff_eq.mp h5)
      rcases h4 with rfl | rfl <;> decide
    have happ := splitSegs_append (rstrip s) (d :: w)
    rw [splitSegs_no_sep hvsf] at happ
    simp only [List.headD_cons, List.tail_cons] at happ
    have hsegs : splitSegs s = (splitSegs (rstrip s)).dropLast ++
        [((splitSegs (rstrip s)).getLastD []) ++ d :: w] := by
      rw [← hsplit] at happ
      exact happ
    rw [hasDotDot_false_iff]
    intro seg hseg
    have hC := dropLast_append_getLastD (l := splitSegs (rstrip s)) []
      (splitSegs_ne_nil (rstrip s))
    rw [← hC] at hseg
    rcases List.mem_append.mp hseg with hseg | hseg
    · refine (hasDotDot_false_iff s).mp h seg ?_
      rw [hsegs]
      exact List.mem_append_left _ hseg
    · have heq : seg = (splitSegs (rstrip s)).getLastD [] :=
        List.mem_singleton.mp hseg
      intro he
      have hne : (splitSegs (rstrip s)).getLastD [] ≠ [] := by
        rw [← heq, he]
        exact List.cons_ne_nil _ _
      have hlast := lastSegD_last_char (rstrip s) hne
      rw [← heq, he] at hlast
      have : (rstrip s).getLast? = some '.' := by
        rw [hlast]
        rfl
      have := endsStrip_eq_some this
      rw [noTr_rstrip s] at this
      exact absurd this.symm (by decide)

theorem reservedNames_prop :
    ∀ r ∈ reservedNames, 3 ≤ r.length ∧ r.length ≤ 4 ∧
      (∀ c ∈ r, isSep c = false ∧ c ≠ '_' ∧ c ≠ '.') := by decide

theorem isReservedStem_elim {s : Name} (h : isReservedStem s = true) :
    ∃ r ∈ reservedNames, (stemOf s).map Char.toUpper = r := by
  rcases List.any_eq_true.mp (by rwa [isReservedStem] at h) with ⟨r, hr, hb⟩
  exact ⟨r, hr, beq_iff_eq.mp hb⟩

theorem stem_sep_free {s : Name} (h : isReservedStem s = true) :
    ∀ c ∈ stemOf s, isSep c = false := by
  intro c hc
  rcases isReservedStem_elim h with ⟨r, hr, heq⟩
  by_cases hsep : isSep c = true
  · have h4 : c = '/' ∨ c = '\\' := by
      rw [isSep] at hsep
      rcases Bool.or_eq_true_iff.mp hsep with h5 | h5
      · exact Or.inl (beq_iff_eq.mp h5)
      · exact Or.inr (beq_iff_eq.mp h5)
    have hmem : Char.toUpper c ∈ r := by
      rw [← heq]
      exact List.mem_map_of_mem Char.toUpper hc
    have hprop := ((reservedNames_prop r hr).2.2 (Char.toUpper c) hmem).1
    rcases h4 with rfl | rfl
    · exact absurd hprop (by decide)
    · exact absurd hprop (by decide)
  · simpa using hsep

theorem stem_rest (s : Name) : stemOf s ++ restOf s = s := by
  rw [stemOf, restOf]
  exact List.takeWhile_append_dropWhile _ s

theorem fileSuffix_len : fileSuffix.length = 5 := rfl

theorem segs_whole (s : Name) :
    splitSegs s = (stemOf s ++ (splitSegs (restOf s)).headD []) ::
      (splitSegs (restOf s)).tail → True := fun _ => trivial

theorem noDD_reservedFix {s : Name} (h : hasDotDotSeg s = false) :
    hasDotDotSeg (reservedFix s) = false := by
  rw [reservedFix]
  split
  · next hres =>
    have hstem_sf := stem_sep_free hres
    have hsf2 : ∀ c ∈ stemOf s ++ fileSuffix, isSep c = false := by
      intro c hc
      rcases List.mem_append.mp hc with hc | hc
      · exact hstem_sf c hc
      · exact (fileSuffix_prop c hc).2.1
    have h2 := splitSegs_append (stemOf s) (restOf s)
    rw [splitSegs_no_sep hstem_sf] at h2
    simp only [List.dropLast_single, getLastD_single, List.nil_append] at h2
    rw [stem_rest] at h2
    have h1 := splitSegs_append (stemOf s ++ fileSuffix) (restOf s)
    rw [splitSegs_no_sep hsf2] at h1
    simp only [List.dropLast_single, getLastD_single, List.nil_append] at h1
    rw [hasDotDot_false_iff]
    intro seg hseg
    rw [h1] at hseg
    rcases List.mem_cons.mp hseg with rfl | hseg
    · apply ne_dotdot_of_len
      simp [List.length_append, fileSuffix_len]
      omega
    · refine (hasDotDot_false_iff s).mp h seg ?_
      rw [h2]
      exact List.mem_cons_of_mem _ hseg
  · exact h

theorem noDD_emptyFix {s : Name} (h : hasDotDotSeg s = false) :
    hasDotDotSeg (emptyFix s) = false := by
  rw [emptyFix]
  split
  · decide
  · exact h

theorem hash_part_sep_free (s : Name) :
    ∀ c ∈ '_' :: contentHash s, isSep c = false := by
  intro c hc
  rcases List.mem_cons.mp hc with rfl | hc
  · decide
  · exact (hexChars_prop c (contentHash_mem hc)).2.1

theorem noDD_lengthFix {s : Name} (h : hasDotDotSeg s = false) :
    hasDotDotSeg (lengthFix s) = false := by
  rw [lengthFix]
  split
  · exact h
  · have hgoal : (baseOf s).take (255 - (extOf s).length - 1 - 8) ++
        '_' :: contentHash s ++ extOf s =
        (baseOf s).take (255 - (extOf s).length - 1 - 8) ++
          (('_' :: contentHash s) ++ extOf s) := by
      simp [List.append_assoc]
    rw [hgoal]
    have hT : (baseOf s).take (255 - (extOf s).length - 1 - 8) =
        s.take ((255 - (extOf s).length - 1 - 8) ⊓
          (s.length - (extOf s).length)) := by
      rw [baseOf, List.take_take]
    have hW : splitSegs (('_' :: contentHash s) ++ extOf s) =
        (('_' :: contentHash s) ++ (splitSegs (extOf s)).headD []) ::
          (splitSegs (extOf s)).tail := by
      rw [splitSegs_append, splitSegs_no_sep (hash_part_sep_free s)]
      simp only [List.dropLast_single, getLastD_single, List.nil_append]
    have happ3 := splitSegs_append
      ((baseOf s).take (255 - (extOf s).length - 1 - 8))
      (('_' :: contentHash s) ++ extOf s)
    rw [hW] at happ3
    simp only [List.headD_cons, List.tail_cons] at happ3
    rw [hasDotDot_false_iff]
    intro seg hseg
    rw [happ3] at hseg
    rcases List.mem_append.mp hseg with hseg | hseg
    · have happ1 := splitSegs_append
        ((baseOf s).take (255 - (extOf s).length - 1 - 8))
        (s.drop ((255 - (extOf s).length - 1 - 8) ⊓ (s.length - (extOf s).length)))
      rw [hT] at happ1
      rw [List.take_append_drop] at happ1
      refine (hasDotDot_false_iff s).mp h seg ?_
      rw [happ1, ← hT]
      exact List.mem_append_left _ hseg
    · rcases List.mem_cons.mp hseg with rfl | hseg
      · apply ne_dotdot_of_len
        simp [List.length_append, contentHash_length]
        omega
      · have happ4 := splitSegs_append (baseOf s) (extOf s)
        rw [baseOf_append_extOf] at happ4
        refine (hasDotDot_false_iff s).mp h seg ?_
        rw [happ4]
        refine List.mem_append_right _ ?_
        exact List.mem_cons_of_mem _ hseg

/-! ## The no-trailing-space/dot invariant through the pipeline. -/

theorem takeWhile_head_eq {p : Char → Bool} {l : Name}
    (h : l.takeWhile p ≠ []) : (l.takeWhile p).head? = l.head? := by
  cases l with
  | nil => simp at h
  | cons c t =>
    rw [List.takeWhile_cons] at h ⊢
    by_cases hp : p c = true
    · rw [if_pos hp]; rfl
    · rw [if_neg hp] at h; exact absurd rfl h

theorem noTr_reservedFix {s : Name} (h : endsStrip s = false) :
    endsStrip (reservedFix s) = false := by
  rw [reservedFix]
  split
  · rcases hr : restOf s with _ | ⟨d, w⟩
    · rw [List.append_nil]
      rw [endsStrip_eq_some (c := 'e') (by
        rw [getLast?_append_right (by decide : fileSuffix ≠ [])]
        rfl)]
      decide
    · cases hcl : (d :: w).getLast? with
      | none => simp [List.getLast?_eq_none_iff] at hcl
      | some c =>
        have hnew : ((stemOf s ++ fileSuffix) ++ d :: w).getLast? = some c := by
          rw [getLast?_append_right (List.cons_ne_nil d w), hcl]
        have hold : s.getLast? = some c := by
          conv_lhs => rw [← stem_rest s]
          rw [hr, getLast?_append_right (List.cons_ne_nil d w), hcl]
        rw [endsStrip_eq_some hnew]
        rw [endsStrip_eq_some hold] at h
        exact h
  · exact h

theorem noTr_emptyFix {s : Name} (h : endsStrip s = false) :
    endsStrip (emptyFix s) = false := by
  rw [emptyFix]
  split
  · decide
  · exact h

theorem noTr_T_hash (s T : Name) :
    endsStrip (T ++ '_' :: contentHash s) = false := by
  have h1 : ('_' :: contentHash s).getLast? = some (hexDigit (hashFold s)) := rfl
  rw [endsStrip_eq_some (by
    rw [getLast?_append_right (List.cons_ne_nil _ _)]
    exact h1)]
  exact (hexChars_prop _ (hexDigit_mem _)).2.2.1

theorem lengthFix_fired {s : Name} (h : ¬ s.length ≤ 255) :
    lengthFix s = (baseOf s).take (255 - (extOf s).length - 1 - 8) ++
      '_' :: contentHash s ++ extOf s := by
  rw [lengthFix, if_neg h]

theorem noTr_lengthFix {s : Name} (h : endsStrip s = false) :
    endsStrip (lengthFix s) = false := by
  by_cases hfire : s.length ≤ 255
  · rw [lengthFix, if_pos hfire]
    exact h
  · rw [lengthFix_fired hfire]
    have hs_ne : s ≠ [] := by
      intro he
      subst he
      simp at hfire
    by_cases h1 : (extTW s).length < s.length
    · by_cases h2 : (extTW s).length + 1 ≤ extCap
      · have hE : extOf s = '.' :: (extTW s).reverse := by
          rw [extOf, if_pos h1, if_pos h2]
        rw [hE]
        rcases htw : extTW s with _ | ⟨c0, tw'⟩
        · exfalso
          rcases hrev : s.reverse with _ | ⟨c, rest⟩
          · exact hs_ne (by simpa using congrArg List.reverse hrev)
          · rw [extTW, hrev, List.takeWhile_cons] at htw
            by_cases hp : (!(c == '.')) = true
            · rw [if_pos hp] at htw
              exact List.cons_ne_nil _ _ htw
            · have hc : c = '.' := by
                have h5 : (c == '.') = true := by simpa using hp
                exact beq_iff_eq.mp h5
              have hlast : s.getLast? = some c := by
                rw [← List.head?_reverse, hrev]
                rfl
              rw [endsStrip_eq_some hlast, hc] at h
              exact absurd h (by decide)
        · have hne : extTW s ≠ [] := by rw [htw]; exact List.cons_ne_nil _ _
          have hhead : s.getLast? = some c0 := by
            have h3 := takeWhile_head_eq (p := fun c => !(c == '.'))
              (l := s.reverse) (by rwa [extTW] at hne)
            rw [← extTW, htw] at h3
            rw [← List.head?_reverse, ← h3]
            rfl
          have hstrip : isStrip c0 = false := by
            rw [endsStrip_eq_some hhead] at h
            exact h
          have hgl : ((baseOf s).take (255 - ('.' :: (c0 :: tw').reverse).length - 1 - 8) ++
              '_' :: contentHash s ++ '.' :: (c0 :: tw').reverse).getLast? = some c0 := by
            rw [getLast?_append_right (List.cons_ne_nil _ _)]
            rw [getLast?_cons_of_ne_nil (by simp)]
            rw [List.getLast?_reverse]
            rfl
          rw [endsStrip_eq_some hgl]
          exact hstrip
      · have hE : extOf s = [] := by rw [extOf, if_pos h1, if_neg h2]
        rw [hE, List.append_nil]
        exact noTr_T_hash s _
    · have hE : extOf s = [] := by rw [extOf, if_neg h1]
      rw [hE, List.append_nil]
      exact noTr_T_hash s _

/-! ## The non-reserved-stem invariant through the pipeline. -/

theorem takeWhile_length_lt_of_ne {p : Char → Bool} {l : Name}
    (h : l.takeWhile p ≠ l) : (l.takeWhile p).length < l.length := by
  induction l with
  | nil => simp at h
  | cons c t ih =>
    rw [List.takeWhile_cons] at h ⊢
    by_cases hp : p c = true
    · rw [if_pos hp] at h ⊢
      have ht : t.takeWhile p ≠ t := fun he => h (by rw [he])
      simpa using ih ht
    · rw [if_neg hp]
      simp

theorem takeWhile_take_all {p : Char → Bool} : ∀ (l : Name) (k : Nat),
    k ≤ (l.takeWhile p).length → (l.take k).takeWhile p = l.take k := by
  intro l
  induction l with
  | nil => intro k _; simp
  | cons c t ih =>
    intro k h
    cases k with
    | zero => simp
    | succ m =>
      rw [List.takeWhile_cons] at h
      by_cases hp : p c = true
      · rw [if_pos hp] at h
        simp only [List.length_cons, Nat.succ_le_succ_iff] at h
        rw [List.take_succ_cons, List.takeWhile_cons, if_pos hp, ih m h]
      · rw [if_neg hp] at h
        simp at h

theorem not_reserved_of_underscore {x : Name} (h : '_' ∈ x) :
    reservedNames.any (fun r => x.map Char.toUpper == r) = false := by
  by_cases hb : reservedNames.any (fun r => x.map Char.toUpper == r) = true
  · rcases List.any_eq_true.mp hb with ⟨r, hr, hbeq⟩
    have heq := beq_iff_eq.mp hbeq
    have hmem : Char.toUpper '_' ∈ r := heq ▸ List.mem_map_of_mem Char.toUpper h
    rw [show Char.toUpper '_' = '_' from by decide] at hmem
    exact absurd rfl ((reservedNames_prop r hr).2.2 '_' hmem).2.1
  · exact (Bool.not_eq_true _) ▸ hb

theorem sr_reservedFix (s : Name) :
    isReservedStem (reservedFix s) = false := by
  rw [reservedFix]
  split
  · next hres =>
    have hpass : ∀ c ∈ stemOf s ++ fileSuffix, (!(c == '.')) = true := by
      intro c hc
      rcases List.mem_append.mp hc with hc | hc
      · exact List.mem_takeWhile_imp (p := fun c => !(c == '.')) (l := s)
          (by rwa [stemOf] at hc)
      · simp [(fileSuffix_prop c hc).2.2]
    have hstem : stemOf ((stemOf s ++ fileSuffix) ++ restOf s) =
        stemOf s ++ fileSuffix := by
      rw [stemOf, takeWhile_append_all hpass]
      have hrest : (restOf s).takeWhile (fun c => !(c == '.')) = [] := by
        rcases hr : restOf s with _ | ⟨d, w⟩
        · rfl
        · have hd := dropWhile_head_false (p := fun c => !(c == '.'))
            (by rw [← restOf]; exact hr)
          rw [List.takeWhile_cons, if_neg (by simp [hd])]
      rw [hrest, List.append_nil]
    rw [isReservedStem, hstem]
    exact not_reserved_of_underscore
      (List.mem_append_right _ (List.mem_cons_self _ _))
  · next hres => simpa using hres

theorem sr_emptyFix {s : Name} (h : isReservedStem s = false) :
    isReservedStem (emptyFix s) = false := by
  rw [emptyFix]
  split
  · decide
  · exact h

theorem sr_lengthFix {s : Name} (h : isReservedStem s = false) :
    isReservedStem (lengthFix s) = false := by
  by_cases hfire : s.length ≤ 255
  · rw [lengthFix, if_pos hfire]
    exact h
  · rw [lengthFix_fired hfire]
    by_cases hA : ((baseOf s).take (255 - (extOf s).length - 1 - 8)).takeWhile
        (fun c => !(c == '.')) = (baseOf s).take (255 - (extOf s).length - 1 - 8)
    · have hTpass : ∀ c ∈ (baseOf s).take (255 - (extOf s).length - 1 - 8),
          (!(c == '.')) = true := by
        intro c hc
        rw [← hA] at hc
        exact List.mem_takeWhile_imp (p := fun c => !(c == '.'))
          (l := (baseOf s).take (255 - (extOf s).length - 1 - 8)) hc
      have hTY : ∀ c ∈ (baseOf s).take (255 - (extOf s).length - 1 - 8) ++
          '_' :: contentHash s, (!(c == '.')) = true := by
        intro c hc
        rcases List.mem_append.mp hc with hc | hc
        · exact hTpass c hc
        · rcases List.mem_cons.mp hc with rfl | hc
          · decide
          · simp [(hexChars_prop c (contentHash_mem hc)).2.2.2]
      have hext : (extOf s).takeWhile (fun c => !(c == '.')) = [] := by
        rw [extOf]
        split
        · split
          · rw [List.takeWhile_cons, if_neg (by simp)]
          · rfl
        · rfl
      have hstem : stemOf ((baseOf s).take (255 - (extOf s).length - 1 - 8) ++
          '_' :: contentHash s ++ extOf s) =
          (baseOf s).take (255 - (extOf s).length - 1 - 8) ++
            '_' :: contentHash s := by
        rw [stemOf, takeWhile_append_all hTY, hext, List.append_nil]
      rw [isReservedStem, hstem]
      exact not_reserved_of_underscore
        (List.mem_append_right _ (List.mem_cons_self _ _))
    · have hlt := takeWhile_length_lt_of_ne hA
      have hstop1 := takeWhile_append_stop (b := '_' :: contentHash s) hA
      have hne2 : ((baseOf s).take (255 - (extOf s).length - 1 - 8) ++
          '_' :: contentHash s).takeWhile (fun c => !(c == '.')) ≠
          (baseOf s).take (255 - (extOf s).length - 1 - 8) ++
            '_' :: contentHash s := by
        rw [hstop1]
        intro he
        have := congrArg List.length he
        simp only [List.length_append, List.length_cons, contentHash_length] at this
        omega
      have hstop2 := takeWhile_append_stop (b := extOf s) hne2
      have hTk : (baseOf s).take (255 - (extOf s).length - 1 - 8) =
          s.take ((255 - (extOf s).length - 1 - 8) ⊓
            (s.length - (extOf s).length)) := by
        rw [baseOf, List.take_take]
      have hstem : stemOf ((baseOf s).take (255 - (extOf s).length - 1 - 8) ++
          '_' :: contentHash s ++ extOf s) =
          (stemOf s).take ((255 - (extOf s).length - 1 - 8) ⊓
            (s.length - (extOf s).length)) := by
        rw [stemOf, hstop2, hstop1, hTk, takeWhile_take, ← stemOf]
      by_cases hk : (stemOf s).length ≤
          (255 - (extOf s).length - 1 - 8) ⊓ (s.length - (extOf s).length)
      · rw [isReservedStem, hstem, List.take_of_length_le hk]
        rw [isReservedStem] at h
        exact h
      · exfalso
        apply hA
        rw [hTk]
        exact takeWhile_take_all s _ (by
          rw [← stemOf]
          omega)

/-! ## Nonemptiness and the length threshold. -/

theorem ne_nil_emptyFix (s : Name) : emptyFix s ≠ [] := by
  rw [emptyFix]
  split
  · decide
  · assumption

theorem ne_nil_lengthFix {s : Name} (h : s ≠ []) : lengthFix s ≠ [] := by
  by_cases hfire : s.length ≤ 255
  · rw [lengthFix, if_pos hfire]
    exact h
  · rw [lengthFix_fired hfire]
    intro he
    have h2 := congrArg List.length he
    simp only [List.length_append, List.length_cons, contentHash_length,
      List.length_nil] at h2
    omega

theorem len_lengthFix (s : Name) : (lengthFix s).length ≤ 255 := by
  by_cases hfire : s.length ≤ 255
  · rw [lengthFix, if_pos hfire]
    exact hfire
  · rw [lengthFix_fired hfire]
    have h1 : ((baseOf s).take (255 - (extOf s).length - 1 - 8)).length ≤
        255 - (extOf s).length - 1 - 8 := List.length_take_le _ _
    have h2 := extOf_length_le s
    rw [show extCap = 16 from rfl] at h2
    simp only [List.length_append, List.length_cons, contentHash_length]
    omega

/-! ## The safety bundle: a name the sanitizer would leave alone. -/

def SafeName (s : Name) : Prop :=
  (∀ c ∈ s, forbiddenChar c = false) ∧ hasDotDotSeg s = false ∧
    endsStrip s = false ∧ isReservedStem s = false ∧ s ≠ [] ∧ s.length ≤ 255

theorem sanitizeCore_safe (s : Name) : SafeName (sanitizeCore s) := by
  rw [sanitizeCore]
  refine ⟨?_, ?_, ?_, ?_, ?_, ?_⟩
  · exact noFb_lengthFix (noFb_emptyFix (noFb_reservedFix (noFb_rstrip
      (noFb_dropTraversal (noFb_replaceForbidden s)))))
  · exact noDD_lengthFix (noDD_emptyFix (noDD_reservedFix (noDD_rstrip
      (noDD_dropTraversal (replaceForbidden s)))))
  · exact noTr_lengthFix (noTr_emptyFix (noTr_reservedFix (noTr_rstrip _)))
  · exact sr_lengthFix (sr_emptyFix (sr_reservedFix _))
  · exact ne_nil_lengthFix (ne_nil_emptyFix _)
  · exact len_lengthFix _

theorem sanitizeCore_fix {t : Name} (h : SafeName t) : sanitizeCore t = t := by
  obtain ⟨h1, h2, h3, h4, h5, h6⟩ := h
  have e1 : replaceForbidden t = t := mapStable (fun c hc => by
    rw [if_neg (by simp [h1 c hc])])
  have e2 : dropTraversal t = t := by rw [dropTraversal, if_neg (by simp [h2])]
  have e3 : rstrip t = t := by
    rcases hrev : t.reverse with _ | ⟨c, rest⟩
    · exact absurd (by simpa using congrArg List.reverse hrev) h5
    · have hc : isStrip c = false := by
        have hlast : t.getLast? = some c := by
          rw [← List.head?_reverse, hrev]
          rfl
        rw [endsStrip_eq_some hlast] at h3
        exact h3
      rw [rstrip, hrev, List.dropWhile_cons, if_neg (by simp [hc]), ← hrev,
        List.reverse_reverse]
  have e4 : reservedFix t = t := by rw [reservedFix, if_neg (by simp [h4])]
  have e5 : emptyFix t = t := by rw [emptyFix, if_neg h5]
  have e6 : lengthFix t = t := by rw [lengthFix, if_pos h6]
  rw [sanitizeCore, e1, e2, e3, e4, e5, e6]

theorem needs_san_false_of_safe {t : Name} (h : SafeName t) :
    needs_sanitization true t = false := by
  obtain ⟨h1, h2, h3, h4, h5, h6⟩ := h
  have hany : t.any forbiddenChar = false :=
    List.any_eq_false.mpr (fun c hc => by simp [h1 c hc])
  rw [needs_sanitization]
  simp [hany, h2, h3, h4]
  omega

theorem needs_san_nonwin (s : Name) : needs_sanitization false s = false := by
  rw [needs_sanitization]
  rfl

theorem sanitizeCore_changes {s : Name}
    (h : needs_sanitization true s = true) : sanitizeCore s ≠ s := by
  intro he
  have hsafe := sanitizeCore_safe s
  rw [he] at hsafe
  rw [needs_san_false_of_safe hsafe] at h
  exact absurd h (by simp)

/-! ## Conflict resolution: the numeric disambiguator search. -/

theorem decDigitsRev_len_ge : ∀ (t k : Nat), 10 ^ t ≤ k →
    t + 1 ≤ (decDigitsRev k).length := by
  intro t
  induction t with
  | zero =>
    intro k hk
    rw [decDigitsRev, dif_neg (by omega)]
    simp
  | succ m ih =>
    intro k hk
    have hpos : 1 ≤ 10 ^ (m + 1) := Nat.one_le_pow _ _ (by decide)
    rw [decDigitsRev, dif_neg (by omega)]
    simp only [List.length_cons]
    have h2 : 10 ^ m ≤ k / 10 := by
      have h3 : 10 ^ (m + 1) / 10 ≤ k / 10 := Nat.div_le_div_right hk
      rwa [Nat.pow_succ, Nat.mul_div_cancel _ (by decide : 0 < 10)] at h3
    have := ih (k / 10) h2
    omega

theorem decRepr_len_ge {t k : Nat} (h : 10 ^ t ≤ k) :
    t + 1 ≤ (decRepr k).length := by
  have hpos : 1 ≤ 10 ^ t := Nat.one_le_pow _ _ (by decide)
  rw [decRepr, if_neg (by omega), List.length_reverse]
  exact decDigitsRev_len_ge t k h

theorem foldl_max_le (l : List Name) : ∀ (a : Nat),
    a ≤ l.foldl (fun acc x => max acc x.length) a ∧
    ∀ x ∈ l, x.length ≤ l.foldl (fun acc x => max acc x.length) a := by
  induction l with
  | nil => intro a; exact ⟨le_refl a, by simp⟩
  | cons y t ih =>
    intro a
    constructor
    · calc a ≤ max a y.length := le_max_left _ _
        _ ≤ _ := (ih (max a y.length)).1
    · intro x hx
      rcases List.mem_cons.mp hx with rfl | hx
      · calc x.length ≤ max a x.length := le_max_right _ _
          _ ≤ _ := (ih (max a x.length)).1
      · exact (ih (max a y.length)).2 x hx

theorem maxNameLen_ge (orig : Name) (ex : List Name) :
    orig.length ≤ maxNameLen orig ex ∧
    ∀ x ∈ ex, x.length ≤ maxNameLen orig ex := by
  have h := foldl_max_le (orig :: ex) 0
  constructor
  · exact h.2 orig (List.mem_cons_self _ _)
  · exact fun x hx => h.2 x (List.mem_cons_of_mem _ hx)

theorem bigK_good (orig c : Name) (ex : List Name) :
    collisionBad orig ex (insertNum c (10 ^ (maxNameLen orig ex + 1))) = false := by
  have hlen : maxNameLen orig ex + 2 ≤
      (decRepr (10 ^ (maxNameLen orig ex + 1))).length :=
    decRepr_len_ge (le_refl _)
  have hcand : maxNameLen orig ex <
      (insertNum c (10 ^ (maxNameLen orig ex + 1))).length := by
    rw [insertNum]
    simp only [List.length_append, List.length_cons]
    omega
  rw [collisionBad]
  have h1 : ex.any
      (fun x => x == insertNum c (10 ^ (maxNameLen orig ex + 1))) = false := by
    rw [List.any_eq_false]
    intro x hx hbeq
    have heq := beq_iff_eq.mp hbeq
    have hle := (maxNameLen_ge orig ex).2 x hx
    rw [heq] at hle
    omega
  have h2 : (insertNum c (10 ^ (maxNameLen orig ex + 1)) == orig) = false := by
    by_cases hb : (insertNum c (10 ^ (maxNameLen orig ex + 1)) == orig) = true
    · have heq := beq_iff_eq.mp hb
      have hle := (maxNameLen_ge orig ex).1
      rw [heq] at hcand
      omega
    · exact (Bool.not_eq_true _) ▸ hb
  rw [h1, h2]
  rfl

theorem searchFree_good (orig c : Name) (ex : List Name) :
    ∀ (fuel k : Nat),
      (∃ j, k ≤ j ∧ j < k + fuel ∧
        collisionBad orig ex (insertNum c j) = false) →
      collisionBad orig ex (searchFree orig c ex k fuel) = false := by
  intro fuel
  induction fuel with
  | zero =>
    intro k h
    rcases h with ⟨j, hj1, hj2, _⟩
    omega
  | succ f ih =>
    intro k h
    rcases h with ⟨j, hj1, hj2, hj3⟩
    simp only [searchFree]
    by_cases hb : collisionBad orig ex (insertNum c k) = true
    · rw [if_pos hb]
      apply ih
      rcases Nat.eq_or_lt_of_le hj1 with rfl | hlt
      · rw [hj3] at hb
        exact absurd hb (by simp)
      · exact ⟨j, hlt, by omega, hj3⟩
    · rw [if_neg hb]
      exact (Bool.not_eq_true _) ▸ hb

theorem resolveCollision_spec (orig c : Name) (ex : List Name) :
    (resolveCollision orig c ex ∉ ex) ∧
    (ex.any (fun x => x == c) = true → resolveCollision orig c ex ≠ orig) ∧
    (ex.any (fun x => x == c) = false → resolveCollision orig c ex = c) := by
  rw [resolveCollision]
  by_cases hcol : ex.any (fun x => x == c) = true
  · rw [if_pos hcol]
    have hpos : 1 ≤ 10 ^ (maxNameLen orig ex + 1) :=
      Nat.one_le_pow _ _ (by decide)
    have hgood := searchFree_good orig c ex
      (10 ^ (maxNameLen orig ex + 1)) 1
      ⟨10 ^ (maxNameLen orig ex + 1), hpos, by omega, bigK_good orig c ex⟩
    have hsplit := Bool.or_eq_false_iff.mp (by rwa [collisionBad] at hgood)
    refine ⟨?_, fun _ => ?_, fun hc2 => absurd hcol (by simp [hc2])⟩
    · intro hmem
      have := List.any_eq_false.mp hsplit.1 _ hmem
      exact this (beq_iff_eq.mpr rfl)
    · intro he
      rw [he] at hsplit
      have := hsplit.2
      rw [beq_iff_eq.mpr rfl] at this
      exact absurd this (by simp)
  · rw [if_neg hcol]
    have hcol' : ex.any (fun x => x == c) = false := (Bool.not_eq_true _) ▸ hcol
    refine ⟨?_, fun hc => absurd hc hcol, fun _ => rfl⟩
    intro hmem
    have := List.any_eq_false.mp hcol' c hmem
    exact this (beq_iff_eq.mpr rfl)

/-! ## Properties of the batch sanitization mapping. -/

theorem sanitize_filename_true (s : Name) (ex : List Name) :
    (sanitize_filename true s ex).1 = resolveCollision s (sanitizeCore s) ex := by
  rw [sanitize_filename, if_pos rfl]

theorem needs_win_true {win : Bool} {m : Name}
    (h : needs_sanitization win m = true) : win = true := by
  cases win
  · rw [needs_san_nonwin] at h
    exact absurd h (by simp)
  · rfl

theorem mappingGo_cons_true {win : Bool} {m : Name} {used : List Name}
    {acc : List (Name × Name)} (rest : List Name)
    (h : (needs_sanitization win m && !(acc.any (fun p => p.1 == m))) = true) :
    mappingGo win (m :: rest) used acc =
      mappingGo win rest ((sanitize_filename win m used).1 :: used)
        ((m, (sanitize_filename win m used).1) :: acc) := by
  simp only [mappingGo]
  rw [if_pos h]

theorem mappingGo_cons_false {win : Bool} {m : Name} {used : List Name}
    {acc : List (Name × Name)} (rest : List Name)
    (h : (needs_sanitization win m && !(acc.any (fun p => p.1 == m))) = false) :
    mappingGo win (m :: rest) used acc = mappingGo win rest used acc := by
  simp only [mappingGo]
  rw [if_neg (by simp [h])]

theorem mappingGo_keys (win : Bool) : ∀ (l used : List Name)
    (acc : List (Name × Name)) (n : Name),
    (∃ v, (n, v) ∈ mappingGo win l used acc) ↔
      ((∃ v, (n, v) ∈ acc) ∨ (n ∈ l ∧ needs_sanitization win n = true)) := by
  intro l
  induction l with
  | nil =>
    intro used acc n
    simp only [mappingGo, List.mem_reverse]
    simp
  | cons m rest ih =>
    intro used acc n
    by_cases hcond : (needs_sanitization win m &&
        !(acc.any (fun p => p.1 == m))) = true
    · obtain ⟨hA, hB⟩ := Bool.and_eq_true_iff.mp hcond
      rw [mappingGo_cons_true rest hcond, ih]
      constructor
      · rintro (⟨v, hv⟩ | ⟨hr, hn⟩)
        · rcases List.mem_cons.mp hv with hv | hv
          · have h1 : n = m := congrArg Prod.fst hv
            exact Or.inr ⟨by rw [h1]; exact List.mem_cons_self _ _, by rw [h1]; exact hA⟩
          · exact Or.inl ⟨v, hv⟩
        · exact Or.inr ⟨List.mem_cons_of_mem _ hr, hn⟩
      · rintro (⟨v, hv⟩ | ⟨hm, hn⟩)
        · exact Or.inl ⟨v, List.mem_cons_of_mem _ hv⟩
        · rcases List.mem_cons.mp hm with rfl | hm
          · exact Or.inl ⟨(sanitize_filename win n used).1, List.mem_cons_self _ _⟩
          · exact Or.inr ⟨hm, hn⟩
    · have hcond' := (Bool.not_eq_true _) ▸ hcond
      rw [mappingGo_cons_false rest hcond', ih]
      constructor
      · rintro (⟨v, hv⟩ | ⟨hr, hn⟩)
        · exact Or.inl ⟨v, hv⟩
        · exact Or.inr ⟨List.mem_cons_of_mem _ hr, hn⟩
      · rintro (⟨v, hv⟩ | ⟨hm, hn⟩)
        · exact Or.inl ⟨v, hv⟩
        · rcases List.mem_cons.mp hm with rfl | hm
          · rcases Bool.and_eq_false_iff.mp hcond' with h5 | h5
            · rw [hn] at h5
              exact absurd h5 (by simp)
            · have h6 : acc.any (fun p => p.1 == n) = true := by
                simpa using h5
              rcases List.any_eq_true.mp h6 with ⟨p, hp, hpb⟩
              have hpn : p.1 = n := beq_iff_eq.mp hpb
              exact Or.inl ⟨p.2, by rw [← hpn]; exact hp⟩
          · exact Or.inr ⟨hm, hn⟩

theorem mappingGo_values (win : Bool) : ∀ (l used : List Name)
    (acc : List (Name × Name)),
    (∀ v ∈ acc.map Prod.snd, v ∈ used) → (acc.map Prod.snd).Nodup →
    ((mappingGo win l used acc).map Prod.snd).Nodup := by
  intro l
  induction l with
  | nil =>
    intro used acc _ hnd
    simp only [mappingGo, List.map_reverse]
    exact List.nodup_reverse.mpr hnd
  | cons m rest ih =>
    intro used acc hsub hnd
    by_cases hcond : (needs_sanitization win m &&
        !(acc.any (fun p => p.1 == m))) = true
    · obtain ⟨hA, hB⟩ := Bool.and_eq_true_iff.mp hcond
      have hwin := needs_win_true hA
      subst hwin
      rw [mappingGo_cons_true rest hcond]
      have hs : (sanitize_filename true m used).1 ∉ used := by
        rw [sanitize_filename_true]
        exact (resolveCollision_spec m (sanitizeCore m) used).1
      apply ih
      · intro v hv
        simp only [List.map_cons, List.mem_cons] at hv
        rcases hv with rfl | hv
        · exact List.mem_cons_self _ _
        · exact List.mem_cons_of_mem _ (hsub v hv)
      · simp only [List.map_cons]
        rw [List.nodup_cons]
        exact ⟨fun hmem => hs (hsub _ hmem), hnd⟩
    · rw [mappingGo_cons_false rest ((Bool.not_eq_true _) ▸ hcond)]
      exact ih used acc hsub hnd

theorem mappingGo_ne (win : Bool) : ∀ (l used : List Name)
    (acc : List (Name × Name)),
    (∀ p ∈ acc, p.1 ≠ p.2) →
    ∀ p ∈ mappingGo win l used acc, p.1 ≠ p.2 := by
  intro l
  induction l with
  | nil =>
    intro used acc hacc p hp
    simp only [mappingGo, List.mem_reverse] at hp
    exact hacc p hp
  | cons m rest ih =>
    intro used acc hacc p hp
    by_cases hcond : (needs_sanitization win m &&
        !(acc.any (fun p => p.1 == m))) = true
    · obtain ⟨hA, hB⟩ := Bool.and_eq_true_iff.mp hcond
      have hwin := needs_win_true hA
      subst hwin
      rw [mappingGo_cons_true rest hcond] at hp
      refine ih _ _ ?_ p hp
      intro q hq
      rcases List.mem_cons.mp hq with rfl | hq
      · show m ≠ (sanitize_filename true m used).1
        rw [sanitize_filename_true]
        by_cases hcoll : used.any (fun x => x == sanitizeCore m) = true
        · exact Ne.symm ((resolveCollision_spec m (sanitizeCore m) used).2.1 hcoll)
        · rw [(resolveCollision_spec m (sanitizeCore m) used).2.2
            ((Bool.not_eq_true _) ▸ hcoll)]
          exact Ne.symm (sanitizeCore_changes hA)
      · exact hacc q hq
    · rw [mappingGo_cons_false rest ((Bool.not_eq_true _) ▸ hcond)] at hp
      exact ih used acc hacc p hp

/-! ## Field-parser lemmas. -/

theorem digitVal_dot (base : Nat) : digitVal base '.' = none := rfl

theorem digitsVal_dot {base : Nat} : ∀ (l : Name) (acc : Nat), '.' ∈ l →
    digitsVal base l acc = none := by
  intro l
  induction l with
  | nil => intro acc h; simp at h
  | cons c t ih =>
    intro acc h
    simp only [digitsVal]
    rcases List.mem_cons.mp h with hc | hc
    · rw [← hc, digitVal_dot]
    · cases hd : digitVal base c
      · rfl
      · exact ih _ hc

theorem mem_dropWhile_of_not {c : Char} {p : Char → Bool} {l : Name}
    (hc : c ∈ l) (hp : p c = false) : c ∈ l.dropWhile p := by
  induction l with
  | nil => simp at hc
  | cons a t ih =>
    rw [List.dropWhile_cons]
    by_cases ha : p a = true
    · rw [if_pos ha]
      rcases List.mem_cons.mp hc with rfl | hc2
      · rw [ha] at hp
        simp at hp
      · exact ih hc2
    · rw [if_neg ha]
      exact hc

theorem mem_stripSpaces {c : Char} {s : Name} (hne : (c == ' ') = false)
    (h : c ∈ s) : c ∈ stripSpaces s := by
  rw [stripSpaces, List.mem_reverse]
  exact mem_dropWhile_of_not
    (List.mem_reverse.mpr (mem_dropWhile_of_not h hne)) hne

theorem pyInt_dot_none {raw : Name} {base : Nat} (h : '.' ∈ raw) :
    pyIntOfString base raw = none := by
  have hmem : '.' ∈ stripSpaces raw := mem_stripSpaces (by decide) h
  rcases hs : stripSpaces raw with _ | ⟨c, t⟩
  · rw [hs] at hmem
    simp at hmem
  · rw [hs] at hmem
    simp only [pyIntOfString, hs]
    by_cases hc1 : c = '-'
    · rw [if_pos hc1]
      have ht : '.' ∈ t := by
        rcases List.mem_cons.mp hmem with hdot | ht
        · rw [hc1] at hdot
          simp at hdot
        · exact ht
      rw [if_neg (by intro he; rw [he] at ht; simp at ht)]
      rw [digitsVal_dot t 0 ht]
      rfl
    · rw [if_neg hc1]
      by_cases hc2 : c = '+'
      · rw [if_pos hc2]
        have ht : '.' ∈ t := by
          rcases List.mem_cons.mp hmem with hdot | ht
          · rw [hc2] at hdot
            simp at hdot
          · exact ht
        rw [if_neg (by intro he; rw [he] at ht; simp at ht)]
        rw [digitsVal_dot t 0 ht]
        rfl
      · rw [if_neg hc2]
        rw [digitsVal_dot (c :: t) 0 hmem]
        rfl

/-! ## Claim theorems for the spec-modelled components. -/

/-- C5 (counterexample): the claim that the compression-ratio accessor always
lies in `[0, 1]` whenever `uncompressed_size > 0` is false on the modelled
code: a record with `uncompressed_size = 1000 > 0` and
`compressed_size = 2000` has ratio `-1`, outside `[0, 1]`. -/
theorem C5_ratio_counterexample :
    0 < (ArchiveInfo.mk (("x.txt").toList) 1000 2000).file_size ∧
    (ArchiveInfo.mk (("x.txt").toList) 1000 2000).get_compression_ratio = -1 ∧
    ¬ (0 ≤ (ArchiveInfo.mk (("x.txt").toList) 1000 2000).get_compression_ratio) := by
  refine ⟨by decide, ?_, ?_⟩
  · rw [ArchiveInfo.get_compression_ratio]
    norm_num
  · rw [ArchiveInfo.get_compression_ratio]
    norm_num

/-- C5 (amended): for every record with `uncompressed_size > 0` and
`compressed_size ≤ uncompressed_size`, the compression-ratio accessor
(`1 − compressed/uncompressed`, special-cased to `1.0` when
`compressed == 0`) lies in the closed interval `[0, 1]`, with no clamping
applied. -/
theorem C5_ratio_in_unit_interval (i : ArchiveInfo) (h1 : 0 < i.file_size)
    (h2 : i.compress_size ≤ i.file_size) :
    0 ≤ i.get_compression_ratio ∧ i.get_compression_ratio ≤ 1 := by
  rw [ArchiveInfo.get_compression_ratio, if_neg (by omega)]
  by_cases hc : i.compress_size = 0
  · rw [if_pos hc]
    norm_num
  · rw [if_neg hc]
    have hfs : (0 : Rat) < (i.file_size : Rat) := by
      exact_mod_cast h1
    constructor
    · have hle : (i.compress_size : Rat) / (i.file_size : Rat) ≤ 1 := by
        rw [div_le_one hfs]
        exact_mod_cast h2
      linarith
    · have hge : 0 ≤ (i.compress_size : Rat) / (i.file_size : Rat) := by
        positivity
      linarith

theorem C5_ratio_witness :
    0 < (ArchiveInfo.mk (("a.txt").toList) 1000 500).file_size ∧
    (ArchiveInfo.mk (("a.txt").toList) 1000 500).compress_size ≤
      (ArchiveInfo.mk (("a.txt").toList) 1000 500).file_size ∧
    (0 ≤ (ArchiveInfo.mk (("a.txt").toList) 1000 500).get_compression_ratio ∧
      (ArchiveInfo.mk (("a.txt").toList) 1000 500).get_compression_ratio ≤ 1) :=
  ⟨by decide, by decide,
    C5_ratio_in_unit_interval (ArchiveInfo.mk (("a.txt").toList) 1000 500)
      (by decide) (by decide)⟩

/-- C6: on the constrained (Windows) platform `sanitize_filename` is
idempotent — sanitizing an already-sanitized name returns it unchanged, and
indeed a sanitized name never needs sanitizing again — and on the
unconstrained platform it returns the name unchanged with `changed = False`. -/
theorem C6_sanitize_filename_idempotent (n : Name) :
    (sanitize_filename true (sanitize_filename true n []).1 []).1 =
      (sanitize_filename true n []).1 ∧
    needs_sanitization true (sanitize_filename true n []).1 = false ∧
    sanitize_filename false n [] = (n, false) := by
  have hresolve : ∀ m : Name,
      resolveCollision m (sanitizeCore m) [] = sanitizeCore m :=
    fun m => (resolveCollision_spec m (sanitizeCore m) []).2.2 rfl
  have hfirst : (sanitize_filename true n []).1 = sanitizeCore n := by
    rw [sanitize_filename_true, hresolve]
  have hsafe : SafeName (sanitizeCore n) := sanitizeCore_safe n
  refine ⟨?_, ?_, ?_⟩
  · rw [hfirst, sanitize_filename_true, hresolve, sanitizeCore_fix hsafe]
  · rw [hfirst]
    exact needs_san_false_of_safe hsafe
  · rfl

/-- C7: for every list of names, the mapping returned by
`get_sanitization_mapping` has pairwise-distinct values, no key equal to its
value, and its key set is exactly the subset of input names that needs
rewriting — already-safe names never appear as keys. -/
theorem C7_get_sanitization_mapping_props (win : Bool) (names : List Name) :
    ((get_sanitization_mapping win names).map Prod.snd).Nodup ∧
    (∀ p ∈ get_sanitization_mapping win names, p.1 ≠ p.2) ∧
    (∀ n, (∃ v, (n, v) ∈ get_sanitization_mapping win names) ↔
      (n ∈ names ∧ needs_sanitization win n = true)) := by
  refine ⟨?_, ?_, ?_⟩
  · exact mappingGo_values win names [] [] (by simp) (by simp)
  · exact mappingGo_ne win names [] [] (by simp)
  · intro n
    rw [get_sanitization_mapping, mappingGo_keys]
    simp

/-- C8: the integer field parser returns the given default on an empty
string or on any parse failure — including float-looking strings, i.e. any
string containing a dot — and never raises (it is a total function). -/
theorem C8_parse_int_defaults (raw : Name) (base : Nat) (d : Int) :
    _parse_int [] base d = d ∧
    ('.' ∈ raw → _parse_int raw base d = d) ∧
    (pyIntOfString base raw = none → _parse_int raw base d = d) := by
  refine ⟨rfl, ?_, ?_⟩
  · intro hdot
    simp only [_parse_int, pyInt_dot_none hdot]
  · intro hnone
    simp only [_parse_int, hnone]

theorem C8_parse_int_witness :
    ('.' ∈ ("123.45").toList) ∧
    _parse_int (("123.45").toList) 10 42 = 42 :=
  ⟨by decide, (C8_parse_int_defaults (("123.45").toList) 10 42).2.1 (by decide)⟩

/-! ## Orchestrator trace predicates and lemmas. -/

def isSkip : Act → Bool
  | .skipExisting _ => true
  | _ => false

def isRunSingle : Act → Bool
  | .runSingle _ => true
  | _ => false

def isMoveFrom (f : Name) : Act → Bool
  | .moveFile src _ => src == f
  | _ => false

theorem move_no_skip (sm : List (Name × Name)) (de : Name → Bool) :
    ∀ tree, (_move_sanitized_files sm true de tree).filter isSkip = [] := by
  intro tree
  induction tree with
  | nil => rfl
  | cons f rest ih =>
    simp only [_move_sanitized_files, Bool.not_true, Bool.and_false]
    rw [if_neg (by simp)]
    simp [List.filter_cons, isSkip, ih]

theorem indiv_no_skip (single : Name → Option CPE) (de : Name → Bool) :
    ∀ sm, ((indivLoop single de true sm).2.2).filter isSkip = [] := by
  intro sm
  induction sm with
  | nil => rfl
  | cons p rest ih =>
    obtain ⟨o, s⟩ := p
    cases hso : single o
    · simp only [indivLoop, hso, Bool.not_true, Bool.and_false]
      rw [if_neg (by simp)]
      simp [List.filter_cons, isSkip, ih]
    · simp only [indivLoop, hso]
      simp [List.filter_cons, isSkip, ih]

theorem san_no_skip (env : ExtractEnv) :
    ((_extract_with_sanitization env true).2).filter isSkip = [] := by
  rw [_extract_with_sanitization]
  cases hl : list_contents env
  · rfl
  · next fl =>
    dsimp only
    by_cases hp : fl.filter (fun f => needs_sanitization env.win f) = []
    · rw [if_pos hp]
      rfl
    · rw [if_neg hp]
      by_cases hm : get_sanitization_mapping env.win fl = []
      · rw [if_pos hm]
        rfl
      · rw [if_neg hm]
        cases env.bulk
        · dsimp only
          rw [List.filter_cons]
          simp only [isSkip]
          rw [if_neg (by simp), List.filter_cons]
          simp only [isSkip]
          rw [if_neg (by simp)]
          exact move_no_skip _ _ _
        · dsimp only [_extract_files_individually]
          rw [List.filter_cons]
          simp only [isSkip]
          rw [if_neg (by simp), List.filter_cons]
          simp only [isSkip]
          rw [if_neg (by simp)]
          exact indiv_no_skip env.single env.destExists _

theorem extract_no_skip (env : ExtractEnv) (mw fe : Bool) :
    ((extract env true mw fe).2).filter isSkip = [] := by
  rw [extract]
  split
  · rfl
  · split
    · rfl
    · cases hd : env.direct
      · rfl
      · next e =>
        dsimp only
        split
        · simp [List.filter_cons, isSkip]
        · cases hr : (_extract_with_sanitization env true).1
          · dsimp only
            rw [List.filter_cons]
            simp only [isSkip]
            rw [if_neg (by simp)]
            exact san_no_skip env
          · dsimp only
            rw [List.filter_cons]
            simp only [isSkip]
            rw [if_neg (by simp)]
            exact san_no_skip env

/-- C10: `extractall` raises `NotImplementedError` whenever `members` is not
`None`; with `members = None` it delegates to `extract` with
`overwrite = True`, so existing destination files are never skipped
(no skip-existing action ever appears in its trace), regardless of how the
archive object was configured. -/
theorem C10_extractall (env : ExtractEnv) (mw fe : Bool) :
    (∀ ms, extractall env mw fe (some ms) =
      (Except.error (PyExc.notImplementedError niMsg), [])) ∧
    extractall env mw fe none = extract env true mw fe ∧
    ((extractall env mw fe none).2).filter isSkip = [] := by
  refine ⟨fun ms => rfl, rfl, ?_⟩
  show ((extract env true mw fe).2).filter isSkip = []
  exact extract_no_skip env mw fe

/-- C4: in the move-with-rename phase, every file of the temp tree is moved
to the sanitization mapping's value for its slash-normalised relative path
(falling back to the path itself when it is not a key); the target's parent
directory is created, and when the destination exists and overwrite is off
the file is skipped — never moved — rather than raising an error (the phase
is a total function producing only mkdir/skip/move actions). -/
theorem C4_move_sanitized_files (sm : List (Name × Name)) (ow : Bool)
    (de : Name → Bool) (tree : List Name) (f : Name) (hf : f ∈ tree) :
    Act.mkdirParent (moveTarget sm f) ∈ _move_sanitized_files sm ow de tree ∧
    (de (moveTarget sm f) = true → ow = false →
      Act.skipExisting (moveTarget sm f) ∈
        _move_sanitized_files sm ow de tree ∧
      (_move_sanitized_files sm ow de tree).filter (isMoveFrom f) = []) ∧
    (de (moveTarget sm f) = false ∨ ow = true →
      Act.moveFile f (moveTarget sm f) ∈
        _move_sanitized_files sm ow de tree) := by
  induction tree with
  | nil => simp at hf
  | cons g rest ih =>
    rcases List.mem_cons.mp hf with rfl | hf2
    · refine ⟨by simp [_move_sanitized_files], ?_, ?_⟩
      · intro hde how
        subst how
        constructor
        · simp only [_move_sanitized_files]
          rw [if_pos (by rw [hde]; rfl)]
          simp
        · simp only [_move_sanitized_files]
          rw [if_pos (by rw [hde]; rfl)]
          rw [List.filter_cons, if_neg (by simp [isMoveFrom])]
          rw [List.filter_cons, if_neg (by simp [isMoveFrom])]
          -- remaining: rest; every entry equal to f skips, others differ in src
          clear ih hf
          induction rest with
          | nil => rfl
          | cons g2 rest2 ih2 =>
            by_cases hg : g2 = f
            · subst hg
              simp only [_move_sanitized_files]
              rw [if_pos (by rw [hde]; rfl)]
              rw [List.filter_cons, if_neg (by simp [isMoveFrom])]
              rw [List.filter_cons, if_neg (by simp [isMoveFrom])]
              exact ih2
            · simp only [_move_sanitized_files]
              rw [List.filter_cons, if_neg (by simp [isMoveFrom])]
              split
              · rw [List.filter_cons, if_neg (by simp [isMoveFrom])]
                exact ih2
              · rw [List.filter_cons, if_neg (by
                  simp only [isMoveFrom]
                  simp [hg])]
                exact ih2
      · intro hcase
        simp only [_move_sanitized_files]
        rcases hcase with hde | how
        · rw [if_neg (by simp [hde])]
          simp
        · subst how
          rw [if_neg (by simp)]
          simp
    · have ihr := ih hf2
      refine ⟨?_, ?_, ?_⟩
      · simp only [_move_sanitized_files]
        exact List.mem_cons_of_mem _ (List.mem_cons_of_mem _ ihr.1)
      · intro hde how
        obtain ⟨hmem, hfil⟩ := ihr.2.1 hde how
        constructor
        · simp only [_move_sanitized_files]
          exact List.mem_cons_of_mem _ (List.mem_cons_of_mem _ hmem)
        · subst how
          by_cases hg : g = f
          · subst hg
            simp only [_move_sanitized_files]
            rw [if_pos (by rw [hde]; rfl)]
            rw [List.filter_cons, if_neg (by simp [isMoveFrom])]
            rw [List.filter_cons, if_neg (by simp [isMoveFrom])]
            exact hfil
          · simp only [_move_sanitized_files]
            rw [List.filter_cons, if_neg (by simp [isMoveFrom])]
            split
            · rw [List.filter_cons, if_neg (by simp [isMoveFrom])]
              exact hfil
            · rw [List.filter_cons, if_neg (by
                simp only [isMoveFrom]
                simp [hg])]
              exact hfil
      · intro hcase
        simp only [_move_sanitized_files]
        exact List.mem_cons_of_mem _ (List.mem_cons_of_mem _ (ihr.2.2 hcase))

theorem C4_move_witness :
    let sm : List (Name × Name) :=
      [(("bad:name.txt").toList, ("bad_name.txt").toList)]
    let tree : List Name := [("bad:name.txt").toList, ("plain.txt").toList]
    (Act.mkdirParent (moveTarget sm (("bad:name.txt").toList)) ∈
      _move_sanitized_files sm false (fun _ => true) tree) ∧
    (Act.skipExisting (moveTarget sm (("bad:name.txt").toList)) ∈
      _move_sanitized_files sm false (fun _ => true) tree) ∧
    (Act.moveFile (("plain.txt").toList)
        (moveTarget sm (("plain.txt").toList)) ∈
      _move_sanitized_files sm true (fun _ => true) tree) := by
  refine ⟨?_, ?_, ?_⟩
  · exact (C4_move_sanitized_files _ false (fun _ => true) _
      (("bad:name.txt").toList) (by simp)).1
  · exact ((C4_move_sanitized_files _ false (fun _ => true) _
      (("bad:name.txt").toList) (by simp)).2.1 rfl rfl).1
  · exact (C4_move_sanitized_files _ true (fun _ => true) _
      (("plain.txt").toList) (by simp)).2.2 (Or.inr rfl)

/-- C3: the per-file fallback accumulates per-member failures without
aborting — every mapping entry is attempted (one run-single action each) and
the failed list is exactly the members whose single extraction failed — and
it raises `FilenameCompatibilityError` exactly when the count of
successfully extracted files is zero; when at least one file succeeded the
operation returns success, with the failed subset only collected (logged),
never raised. -/
theorem C3_extract_files_individually (sm : List (Name × Name)) (ow : Bool)
    (single : Name → Option CPE) (de : Name → Bool) :
    (indivLoop single de ow sm).2.1 =
      (sm.filter (fun p => (single p.1).isSome)).map Prod.fst ∧
    ((indivLoop single de ow sm).2.2).countP isRunSingle = sm.length ∧
    ((_extract_files_individually sm ow single de).1 =
        Except.error (PyExc.filenameCompatibilityError
          (indivFailMsg (indivLoop single de ow sm).2.1)
          (sm.map Prod.fst) true) ↔
      (indivLoop single de ow sm).1 = 0) ∧
    ((indivLoop single de ow sm).1 ≠ 0 →
      (_extract_files_individually sm ow single de).1 = Except.ok ()) := by
  refine ⟨?_, ?_, ?_, ?_⟩
  · induction sm with
    | nil => rfl
    | cons p rest ih =>
      obtain ⟨o, s⟩ := p
      cases hso : single o
      · simp only [indivLoop, hso]
        split
        · rw [List.filter_cons, if_neg (by simp [hso])]
          exact ih
        · rw [List.filter_cons, if_neg (by simp [hso])]
          exact ih
      · simp only [indivLoop, hso]
        rw [List.filter_cons, if_pos (by simp [hso])]
        simp only [List.map_cons]
        show o :: (indivLoop single de ow rest).2.1 = _
        rw [ih]
  · induction sm with
    | nil => rfl
    | cons p rest ih =>
      obtain ⟨o, s⟩ := p
      cases hso : single o
      · simp only [indivLoop, hso]
        split
        · simp [List.countP_cons, isRunSingle, ih]
        · simp [List.countP_cons, isRunSingle, ih]
      · simp only [indivLoop, hso]
        simp [List.countP_cons, isRunSingle, ih]
  · rw [_extract_files_individually]
    by_cases hz : (indivLoop single de ow sm).1 = 0
    · rw [if_pos hz]
      exact ⟨fun _ => hz, fun _ => rfl⟩
    · rw [if_neg hz]
      constructor
      · intro he
        exact absurd he (by simp)
      · intro he
        exact absurd he hz
  · intro hnz
    rw [_extract_files_individually, if_neg hnz]

/-! ## Substring facts for the wrapped diagnostics. -/

theorem startsWith_append_self (p rest : Name) :
    startsWith (p ++ rest) p = true := by
  induction p with
  | nil => cases rest <;> rfl
  | cons c t ih =>
    show (c == c && startsWith (t ++ rest) t) = true
    rw [ih]
    simp

theorem containsSub_of_startsWith {hay pat : Name}
    (h : startsWith hay pat = true) : containsSub hay pat = true := by
  cases hay
  · exact h
  · simp only [containsSub, h, Bool.true_or]

theorem containsSub_cons {c : Char} {t pat : Name}
    (h : containsSub t pat = true) : containsSub (c :: t) pat = true := by
  simp only [containsSub, h, Bool.or_true]

theorem containsSub_append_mid (a p b : Name) :
    containsSub ((a ++ p) ++ b) p = true := by
  induction a with
  | nil =>
    refine containsSub_of_startsWith ?_
    have h2 : (([] ++ p) ++ b) = p ++ b := by simp
    rw [h2]
    exact startsWith_append_self p b
  | cons c t ih =>
    have h2 : (((c :: t) ++ p) ++ b) = c :: ((t ++ p) ++ b) := by simp
    rw [h2]
    exact containsSub_cons ih

theorem containsSub_append_end (a p : Name) :
    containsSub (a ++ p) p = true := by
  have h := containsSub_append_mid a p []
  rwa [List.append_nil] at h

theorem is_filename_error_false {win : Bool} {msg : Name}
    (h : win = false ∨ filename_error_patterns.all
      (fun p => !(containsSub (toLowerName msg) p)) = true) :
    _is_filename_error win msg = false := by
  rcases h with rfl | h
  · rfl
  · rw [_is_filename_error]
    cases win
    · rfl
    · simp only [Bool.true_and]
      rw [List.any_eq_false]
      intro p hp
      have h2 := List.all_eq_true.mp h p hp
      simp only [Bool.not_eq_true'] at h2
      simp [h2]

def isFCE : Except PyExc Unit → Bool
  | Except.error (PyExc.filenameCompatibilityError _ _ _) => true
  | _ => false

/-- C1: when the direct extraction attempt fails and the diagnostic text
matches none of the fixed filename-incompatibility phrases — or the platform
is not Windows, where `_is_filename_error` is always `False` — `extract`
raises an `ExtractionError` wrapping the diagnostic text immediately: the
trace is the single direct run, with no listing and no sanitization step. -/
theorem C1_non_filename_error_immediate (env : ExtractEnv) (ow : Bool)
    (e : CPE) (hd : env.direct = some e)
    (h : env.win = false ∨ filename_error_patterns.all
      (fun p => !(containsSub (toLowerName (errMsgOf e)) p)) = true) :
    extract env ow false true =
      (Except.error (PyExc.extractionError (extractFailPre ++ errMsgOf e)
        e.returncode (some e)), [Act.runDirect]) := by
  have hife := is_filename_error_false h
  rw [extract, if_neg (by simp), if_neg (by simp), hd]
  dsimp only
  rw [if_pos (by rw [hife]; rfl)]

theorem C1_witness :
    extract (ExtractEnv.mk true (("a.7z").toList)
        (some (CPE.mk 2 (("disk full").toList))) (Except.ok []) none
        (fun _ => none) [] (fun _ => false)) false false true =
      (Except.error (PyExc.extractionError
        (extractFailPre ++ errMsgOf (CPE.mk 2 (("disk full").toList)))
        2 (some (CPE.mk 2 (("disk full").toList)))), [Act.runDirect]) :=
  C1_non_filename_error_immediate _ false (CPE.mk 2 (("disk full").toList))
    rfl (Or.inr (by decide))

/-- C2: when the direct attempt fails with a filename-classified diagnostic
but no member of the archive needs sanitization, the orchestrator raises the
distinct "no problematic filenames detected" `FilenameCompatibilityError`
instead of retrying extraction (the trace shows only the listing, no further
extraction command), and `extract` surfaces it wrapped in an
`ExtractionError` carrying both diagnostics. -/
theorem C2_no_problematic_filenames (env : ExtractEnv) (ow : Bool) (e : CPE)
    (fl : List Name)
    (hd : env.direct = some e)
    (hife : _is_filename_error env.win (errMsgOf e) = true)
    (hl : env.listResult = Except.ok fl)
    (hfl : fl.filter (fun f => needs_sanitization env.win f) = []) :
    _extract_with_sanitization env ow =
      (Except.error (PyExc.filenameCompatibilityError noProblemMsg [] false),
        [Act.listArchive]) ∧
    extract env ow false true =
      (Except.error (PyExc.extractionError
        (sanWrapA ++ errMsgOf e ++ sanWrapB ++ noProblemMsg)
        e.returncode (some e)), [Act.runDirect, Act.listArchive]) := by
  have hlc : list_contents env = Except.ok fl := by rw [list_contents, hl]
  have hsan : _extract_with_sanitization env ow =
      (Except.error (PyExc.filenameCompatibilityError noProblemMsg [] false),
        [Act.listArchive]) := by
    rw [_extract_with_sanitization, hlc]
    dsimp only
    rw [if_pos hfl, hfl]
  refine ⟨hsan, ?_⟩
  rw [extract, if_neg (by simp), if_neg (by simp), hd]
  dsimp only
  rw [if_neg (by rw [hife]; simp), hsan]
  rfl

theorem C2_witness :
    _extract_with_sanitization (ExtractEnv.mk true (("a.7z").toList)
      (some (CPE.mk 2 (("cannot create x").toList)))
      (Except.ok [("ok.txt").toList]) none (fun _ => none) []
      (fun _ => false)) false =
      (Except.error (PyExc.filenameCompatibilityError noProblemMsg [] false),
        [Act.listArchive]) :=
  (C2_no_problematic_filenames _ false (CPE.mk 2 (("cannot create x").toList))
    [("ok.txt").toList] rfl (by decide) rfl (by decide)).1

/-- C9: `extract` never lets a `FilenameCompatibilityError` (or any other
sanitization-phase exception) escape: its result is never a
`FilenameCompatibilityError`, and every failure of the sanitization attempt
is re-raised as an `ExtractionError` whose message contains both the original
diagnostic text and the sanitization error's text, carries the original
process return code, and is chained to the original `CalledProcessError`. -/
theorem C9_sanitization_errors_wrapped :
    (∀ (env : ExtractEnv) (ow mw fe : Bool),
      isFCE (extract env ow mw fe).1 = false) ∧
    (∀ (env : ExtractEnv) (ow : Bool) (e : CPE) (se : PyExc),
      env.direct = some e →
      _is_filename_error env.win (errMsgOf e) = true →
      (_extract_with_sanitization env ow).1 = Except.error se →
      extract env ow false true =
        (Except.error (PyExc.extractionError
          (sanWrapA ++ errMsgOf e ++ sanWrapB ++ excMsgOf se)
          e.returncode (some e)),
          Act.runDirect :: (_extract_with_sanitization env ow).2) ∧
      containsSub (sanWrapA ++ errMsgOf e ++ sanWrapB ++ excMsgOf se)
        (errMsgOf e) = true ∧
      containsSub (sanWrapA ++ errMsgOf e ++ sanWrapB ++ excMsgOf se)
        (excMsgOf se) = true) := by
  constructor
  · intro env ow mw fe
    rw [extract]
    split
    · rfl
    · split
      · rfl
      · cases hd : env.direct
        · rfl
        · next e =>
          dsimp only
          split
          · rfl
          · cases hr : (_extract_with_sanitization env ow).1
            · dsimp only
              rfl
            · dsimp only
              rfl
  · intro env ow e se hd hife hsr
    refine ⟨?_, ?_, ?_⟩
    · rw [extract, if_neg (by simp), if_neg (by simp), hd]
      dsimp only
      rw [if_neg (by rw [hife]; simp), hsr]
    · have h2 : sanWrapA ++ errMsgOf e ++ sanWrapB ++ excMsgOf se =
          (sanWrapA ++ errMsgOf e) ++ (sanWrapB ++ excMsgOf se) := by
        simp [List.append_assoc]
      rw [h2]
      exact containsSub_append_mid sanWrapA (errMsgOf e)
        (sanWrapB ++ excMsgOf se)
    · exact containsSub_append_end (sanWrapA ++ errMsgOf e ++ sanWrapB)
        (excMsgOf se)

theorem C9_witness :
    isFCE (extract (ExtractEnv.mk true (("a.7z").toList)
        (some (CPE.mk 2 (("cannot create file").toList))) (Except.ok []) none
        (fun _ => none) [] (fun _ => false)) false false true).1 = false ∧
    containsSub (sanWrapA ++
        errMsgOf (CPE.mk 2 (("cannot create file").toList)) ++ sanWrapB ++
        excMsgOf (PyExc.filenameCompatibilityError noProblemMsg [] false))
      (errMsgOf (CPE.mk 2 (("cannot create file").toList))) = true :=
  ⟨C9_sanitization_errors_wrapped.1 (ExtractEnv.mk true (("a.7z").toList)
      (some (CPE.mk 2 (("cannot create file").toList))) (Except.ok []) none
      (fun _ => none) [] (fun _ => false)) false false true,
   (C9_sanitization_errors_wrapped.2 (ExtractEnv.mk true (("a.7z").toList)
      (some (CPE.mk 2 (("cannot create file").toList))) (Except.ok []) none
      (fun _ => none) [] (fun _ => false)) false
      (CPE.mk 2 (("cannot create file").toList))
      (PyExc.filenameCompatibilityError noProblemMsg [] false)
      rfl (by decide) rfl).2.1⟩
